import Mathlib

/-!
# SimpleVector: a shallow embedding of `src/simple-vector/array_ptr.h`

The file embeds the class template `SimpleVector<Type>` and proves properties of
its operations.

Conventions of the embedding.

* The owned buffer `vector_` (an `ArrayPtr<Type>`) is the list of its allocated
  slots: the length of the list is the number of slots that were allocated.
* `size_` and `capacity_` are the two counters of the class, kept as they are in
  the source: nothing in the embedding ties `capacity_` to the length of the
  buffer.
* An iterator is its offset from `begin()`, a natural number; `end()` is the
  offset `size_`.
* A call returns `Except Fault _`: a failed `assert` is `Fault.assertion`
  (assertions are compiled in), the exception of `At` is `Fault.out_of_range`,
  and undefined behaviour, that is a read or write of a slot that was never
  allocated or an iterator range whose start lies behind its end, is
  `Fault.out_of_bounds`.
* `size_t` arithmetic is arithmetic on `Nat`: a doubled capacity would wrap only
  for a buffer of at least `2^63` elements, which cannot be allocated.
* The value an element holds after it has been moved from is `moved x`, for an
  arbitrary function `moved` (the identity for trivially copyable types).
* An argument of type `const Type&` is a reference (`Ref`): to an object outside
  the sequence, or to a slot of the buffer the sequence owns when the call is
  made; it is read where the source reads it. An argument of type `Type&&` is
  taken by value: it is taken to be the only reference to its object, as the
  standard library takes its rvalue parameters to be, so a call that moves from
  a slot of the buffer itself (`v.Insert(pos, std::move(v[j]))`) is not covered.
* `operator==` of the element type is equality of values, `operator<` is the
  `<` of the type; the theorems on ordering take a linear order.
* `ArrayPtr<Type>` itself is not among the sources (the file includes a header of
  its own name); the few things the class asks of it are modelled from the spec
  and marked so.
-/

namespace SimpleVec

/-- The ways a call can end without returning normally. -/
inductive Fault where
  /-- A failed `assert`. -/
  | assertion
  /-- The exception `std::out_of_range`. -/
  | out_of_range
  /-- Undefined behaviour: a slot outside the allocated block is read or written,
  or an algorithm is handed a range whose start lies behind its end. -/
  | out_of_bounds
  deriving DecidableEq, Repr

/-! ## The owned buffer -/

/-- Modelled from the spec: `ArrayPtr<Type>(n)`, whose header is not among the
sources ("construction with a requested length"). The fresh block has `n` slots,
each holding a default-constructed value. -/
def allocate {α : Type} [Inhabited α] (n : Nat) : List α :=
  List.replicate n default

/-- Modelled from the spec: element access by position of the absent
`ArrayPtr<Type>`, for reading (`buf[i]`, `*(buf.Get() + i)`). A slot outside the
allocated block has no value to give. -/
def readSlot {α : Type} (buf : List α) (i : Nat) : Except Fault α :=
  match buf[i]? with
  | some x => .ok x
  | none => .error .out_of_bounds

/-- Modelled from the spec: element access by position of the absent
`ArrayPtr<Type>`, for writing (`buf[i] = v`, `*(buf.Get() + i) = v`). -/
def writeSlot {α : Type} (buf : List α) (i : Nat) (v : α) : Except Fault (List α) :=
  if i < buf.length then .ok (buf.set i v) else .error .out_of_bounds

/-- Modelled from the spec: the default constructor of the absent
`ArrayPtr<Type>`, an empty buffer. -/
def no_buffer {α : Type} : List α := []

/-- Modelled from the spec: the move constructor of the absent `ArrayPtr<Type>`
("ownership transfer (the source becomes empty)"): the buffer the new owner
holds, and the buffer left to the source. -/
def transfer {α : Type} (buf : List α) : List α × List α :=
  (buf, no_buffer)

/-- What an argument of type `const Type&` refers to: an object outside the
sequence that holds `v`, or slot `j` of the buffer the sequence owns when the
call is made (as in `v.Insert(pos, v[j])`). -/
inductive Ref (α : Type) where
  | outside (v : α)
  | slot (j : Nat)
  deriving DecidableEq, Repr

/-- Reading through a reference at a moment when the block it may point into
holds `buf`. -/
def deref {α : Type} (buf : List α) : Ref α → Except Fault α
  | .outside v => .ok v
  | .slot j => readSlot buf j

/-! ## The standard algorithms the class calls, as element-by-element loops -/

/-- Loop of `std::copy` from one buffer into another: `n` elements are left to
copy, the next one from `src[first]` to `dst[d_first]`. -/
def copy_loop {α : Type} (src : List α) :
    Nat → Nat → Nat → List α → Except Fault (List α)
  | 0, _, _, dst => .ok dst
  | n + 1, first, d_first, dst => do
    let x ← readSlot src first
    let dst ← writeSlot dst d_first x
    copy_loop src n (first + 1) (d_first + 1) dst

/-- The call `std::copy(src + first, src + last, dst + d_first)`, source and
destination being different buffers. -/
def copy {α : Type} (src : List α) (first last : Nat) (dst : List α) (d_first : Nat) :
    Except Fault (List α) :=
  if last < first then .error .out_of_bounds
  else copy_loop src (last - first) first d_first dst

/-- The call `std::move(src + first, src + last, dst + d_first)` from one buffer
into another. Every caller releases the source buffer right after the call, so
the moved-from slots of the source are not tracked: the destination receives what
`std::copy` would give it. -/
def move_into {α : Type} (src : List α) (first last : Nat) (dst : List α) (d_first : Nat) :
    Except Fault (List α) :=
  copy src first last dst d_first

/-- Loop of `std::copy_backward` inside one buffer: `n` elements are left, the
next one read is `buf[first + n - 1]` (that is `*(--last)`) and it is written to
`*(--d_last)`. -/
def copy_backward_loop {α : Type} (first : Nat) :
    Nat → Nat → List α → Except Fault (List α)
  | 0, _, buf => .ok buf
  | _ + 1, 0, _ => .error .out_of_bounds
  | n + 1, d + 1, buf => do
    let x ← readSlot buf (first + n)
    let buf ← writeSlot buf d x
    copy_backward_loop first n d buf

/-- The call `std::copy_backward(buf + first, buf + last, buf + d_last)`. -/
def copy_backward {α : Type} (buf : List α) (first last d_last : Nat) :
    Except Fault (List α) :=
  if last < first then .error .out_of_bounds
  else copy_backward_loop first (last - first) d_last buf

/-- Loop of `std::move_backward` inside one buffer: as `copy_backward_loop`, and
the slot that was read is left moved-from. -/
def move_backward_loop {α : Type} (moved : α → α) (first : Nat) :
    Nat → Nat → List α → Except Fault (List α)
  | 0, _, buf => .ok buf
  | _ + 1, 0, _ => .error .out_of_bounds
  | n + 1, d + 1, buf => do
    let x ← readSlot buf (first + n)
    let buf ← writeSlot buf d x
    let buf ← writeSlot buf (first + n) (moved x)
    move_backward_loop moved first n d buf

/-- The call `std::move_backward(buf + first, buf + last, buf + d_last)`. -/
def move_backward {α : Type} (moved : α → α) (buf : List α) (first last d_last : Nat) :
    Except Fault (List α) :=
  if last < first then .error .out_of_bounds
  else move_backward_loop moved first (last - first) d_last buf

/-- Loop of `std::move` inside one buffer, front to back: `n` elements are left,
the next one goes from `buf[first]` to `buf[d_first]` and `buf[first]` is left
moved-from. -/
def move_loop {α : Type} (moved : α → α) :
    Nat → Nat → Nat → List α → Except Fault (List α)
  | 0, _, _, buf => .ok buf
  | n + 1, first, d_first, buf => do
    let x ← readSlot buf first
    let buf ← writeSlot buf d_first x
    let buf ← writeSlot buf first (moved x)
    move_loop moved n (first + 1) (d_first + 1) buf

/-- The call `std::move(buf + first, buf + last, buf + d_first)` inside one
buffer. A range whose start lies behind its end is undefined behaviour. -/
def move {α : Type} (moved : α → α) (buf : List α) (first last d_first : Nat) :
    Except Fault (List α) :=
  if last < first then .error .out_of_bounds
  else move_loop moved (last - first) first d_first buf

/-- Loop of `std::fill` and of `std::generate` with a constant generator: `n`
slots from `first` on receive `v`. -/
def fill_loop {α : Type} (v : α) : Nat → Nat → List α → Except Fault (List α)
  | 0, _, buf => .ok buf
  | n + 1, first, buf => do
    let buf ← writeSlot buf first v
    fill_loop v n (first + 1) buf

/-- The call `std::fill(buf + first, buf + last, v)`. -/
def fill {α : Type} (buf : List α) (first last : Nat) (v : α) : Except Fault (List α) :=
  if last < first then .error .out_of_bounds
  else fill_loop v (last - first) first buf

/-- The call `std::generate(buf + first, buf + last, [](){ return Type{}; })`. -/
def generate {α : Type} [Inhabited α] (buf : List α) (first last : Nat) :
    Except Fault (List α) :=
  fill buf first last default

/-- Loop of `std::equal`: `n` pairs are left to compare, the next one is
`a[first1]` with `b[first2]`; the first unequal pair ends the loop. -/
def equal_loop {α : Type} [DecidableEq α] (a b : List α) :
    Nat → Nat → Nat → Except Fault Bool
  | 0, _, _ => .ok true
  | n + 1, first1, first2 => do
    let x ← readSlot a first1
    let y ← readSlot b first2
    if x = y then equal_loop a b n (first1 + 1) (first2 + 1) else .ok false

/-- The call `std::equal(a + first1, a + last1, b + first2)`. -/
def equal {α : Type} [DecidableEq α] (a : List α) (first1 last1 : Nat) (b : List α)
    (first2 : Nat) : Except Fault Bool :=
  if last1 < first1 then .error .out_of_bounds
  else equal_loop a b (last1 - first1) first1 first2

/-- Loop of `std::lexicographical_compare`: `n1` and `n2` elements are left in
the two ranges, the next pair is `a[first1]` and `b[first2]`. The first pair that
is ordered either way decides; when a range runs out, the first range is smaller
exactly when elements of the second are left. -/
def lexicographical_compare_loop {α : Type} [LT α] [DecidableRel (α := α) (· < ·)]
    (a b : List α) : Nat → Nat → Nat → Nat → Except Fault Bool
  | 0, n2, _, _ => .ok (decide (n2 ≠ 0))
  | _ + 1, 0, _, _ => .ok false
  | n1 + 1, n2 + 1, first1, first2 => do
    let x ← readSlot a first1
    let y ← readSlot b first2
    if x < y then .ok true
    else if y < x then .ok false
    else lexicographical_compare_loop a b n1 n2 (first1 + 1) (first2 + 1)

/-- The call `std::lexicographical_compare(a + first1, a + last1, b + first2,
b + last2)`. -/
def lexicographical_compare {α : Type} [LT α] [DecidableRel (α := α) (· < ·)]
    (a : List α) (first1 last1 : Nat) (b : List α) (first2 last2 : Nat) :
    Except Fault Bool :=
  if last1 < first1 ∨ last2 < first2 then .error .out_of_bounds
  else lexicographical_compare_loop a b (last1 - first1) (last2 - first2) first1 first2

/-! ## Closed forms of the buffers the loops produce -/

/-- The buffer `dst` with its `n` slots from `d` on replaced by the `n` elements
of `src` from `first` on. -/
def spliced {α : Type} (dst : List α) (d : Nat) (src : List α) (first n : Nat) : List α :=
  dst.take d ++ (src.drop first).take n ++ dst.drop (d + n)

/-- The buffer `buf` with its elements `[first, first + n)` copied one slot to
the right; slot `first` keeps its element. -/
def shifted {α : Type} (buf : List α) (first n : Nat) : List α :=
  buf.take (first + 1) ++ (buf.drop first).take n ++ buf.drop (first + n + 1)

/-- The buffer `buf` with its elements `[d + 1, d + 1 + n)` copied one slot to
the left; slot `d + n` keeps its element. -/
def closed_up {α : Type} (buf : List α) (d n : Nat) : List α :=
  buf.take d ++ (buf.drop (d + 1)).take n ++ buf.drop (d + n)

/-! ## The class -/

/-- The data members of `SimpleVector<Type>`. -/
structure SimpleVector (α : Type) where
  vector_ : List α
  size_ : Nat
  capacity_ : Nat
  deriving DecidableEq, Repr

namespace SimpleVector

variable {α : Type}

/-- The live elements: the slots `[0, size_)` of the buffer, in order. -/
def live (s : SimpleVector α) : List α :=
  s.vector_.take s.size_

/-- `SimpleVector() noexcept = default`. -/
def empty : SimpleVector α :=
  { vector_ := no_buffer, size_ := 0, capacity_ := 0 }

/-- `SimpleVector(size_t size, const Type& value)`. -/
def with_value [Inhabited α] (size : Nat) (value : α) : Except Fault (SimpleVector α) := do
  let buf ← fill (allocate size) 0 size value
  pure { vector_ := buf, size_ := size, capacity_ := size }

/-- `explicit SimpleVector(size_t size)`, which delegates to `(size, Type{})`. -/
def with_size [Inhabited α] (size : Nat) : Except Fault (SimpleVector α) :=
  with_value size default

/-- `SimpleVector(std::initializer_list<Type> init)`. -/
def of_init [Inhabited α] (init : List α) : Except Fault (SimpleVector α) := do
  let buf ← copy init 0 init.length (allocate init.length) 0
  pure { vector_ := buf, size_ := init.length, capacity_ := init.length }

/-- `explicit SimpleVector(ReserveProxyObj capacity)`. -/
def with_reserve [Inhabited α] (capacity : Nat) : SimpleVector α :=
  { vector_ := allocate capacity, size_ := 0, capacity_ := capacity }

/-- `SimpleVector(const SimpleVector& other)`; `other` is read only. -/
def copy_construct [Inhabited α] (other : SimpleVector α) : Except Fault (SimpleVector α) := do
  let buf ← copy other.vector_ 0 other.size_ (allocate other.size_) 0
  pure { vector_ := buf, size_ := other.size_, capacity_ := other.size_ }

/-- `SimpleVector(SimpleVector&& other) noexcept`: the new object and what is
left of `other`, whose counters `std::exchange` sets to 0. -/
def move_construct (other : SimpleVector α) : SimpleVector α × SimpleVector α :=
  ({ vector_ := (transfer other.vector_).1, size_ := other.size_,
     capacity_ := other.capacity_ },
   { vector_ := (transfer other.vector_).2, size_ := 0, capacity_ := 0 })

/-- `GetSize`. -/
def GetSize (s : SimpleVector α) : Nat := s.size_

/-- `GetCapacity`. -/
def GetCapacity (s : SimpleVector α) : Nat := s.capacity_

/-- `IsEmpty`. -/
def IsEmpty (s : SimpleVector α) : Bool := s.size_ == 0

/-- `operator[]`: `assert(index < size_)`, then the slot. -/
def index (s : SimpleVector α) (i : Nat) : Except Fault α :=
  if i < s.size_ then readSlot s.vector_ i else .error .assertion

/-- `At`: throws `std::out_of_range` when `index >= size_`, else the slot. The
container is not part of the result: the body assigns to no member. -/
def At (s : SimpleVector α) (i : Nat) : Except Fault α :=
  if i ≥ s.size_ then .error .out_of_range else readSlot s.vector_ i

/-- `Clear`. -/
def Clear (s : SimpleVector α) : SimpleVector α :=
  { s with size_ := 0 }

/-- `Resize`. -/
def Resize [Inhabited α] (s : SimpleVector α) (new_size : Nat) :
    Except Fault (SimpleVector α) :=
  if new_size ≤ s.capacity_ then
    if new_size < s.size_ then
      pure { s with size_ := new_size }
    else do
      let buf ← generate s.vector_ s.size_ new_size
      pure { s with vector_ := buf, size_ := new_size }
  else do
    let tmp : List α := allocate new_size
    let tmp ← move_into s.vector_ 0 s.size_ tmp 0
    let tmp ← generate tmp s.size_ new_size
    pure { vector_ := tmp, size_ := new_size, capacity_ := max new_size (s.capacity_ * 2) }

/-- `PopBack`: `assert(!IsEmpty())`, then `--size_`. -/
def PopBack (s : SimpleVector α) : Except Fault (SimpleVector α) :=
  if s.IsEmpty then .error .assertion else pure { s with size_ := s.size_ - 1 }

/-- `Insert(ConstIterator pos, const Type& value)`: the new state and the
returned iterator. `pos >= cbegin()` holds of every offset. `value` is read
where the source reads it: in the two reallocating branches while the old block
is still as it was (after the swap it lives on in `tmp` until the call returns),
in the branch with room after `std::copy_backward` has shifted the elements. -/
def Insert [Inhabited α] (s : SimpleVector α) (pos : Nat) (value : Ref α) :
    Except Fault (SimpleVector α × Nat) :=
  if ¬ pos ≤ s.size_ then .error .assertion
  else
    let index := pos
    if s.size_ = s.capacity_ then
      if s.capacity_ = 0 then do
        let tmp : List α := allocate 1
        let x ← deref s.vector_ value
        let buf ← writeSlot tmp 0 x
        pure ({ vector_ := buf, size_ := 1, capacity_ := 1 }, 0)
      else do
        let tmp : List α := allocate (s.capacity_ * 2)
        let tmp ← copy s.vector_ 0 index tmp 0
        let x ← deref s.vector_ value
        let tmp ← writeSlot tmp index x
        let tmp ← copy s.vector_ index s.size_ tmp (index + 1)
        pure ({ vector_ := tmp, size_ := s.size_ + 1, capacity_ := s.capacity_ * 2 }, index)
    else do
      let buf ← copy_backward s.vector_ index s.size_ (s.size_ + 1)
      let x ← deref buf value
      let buf ← writeSlot buf index x
      pure ({ s with vector_ := buf, size_ := s.size_ + 1 }, index)

/-- `Insert(ConstIterator pos, Type&& value)`: as `Insert`, the existing
elements being moved instead of copied. The rvalue argument is taken to be the
only reference to its object, which is then outside the buffer and holds the
same value whenever it is read; it is left moved-from, outside the container. -/
def InsertMove [Inhabited α] (moved : α → α) (s : SimpleVector α) (pos : Nat) (value : α) :
    Except Fault (SimpleVector α × Nat) :=
  if ¬ pos ≤ s.size_ then .error .assertion
  else
    let index := pos
    if s.size_ = s.capacity_ then
      if s.capacity_ = 0 then do
        let tmp : List α := allocate 1
        let buf ← writeSlot tmp 0 value
        pure ({ vector_ := buf, size_ := 1, capacity_ := 1 }, 0)
      else do
        let tmp : List α := allocate (s.capacity_ * 2)
        let tmp ← move_into s.vector_ 0 index tmp 0
        let tmp ← writeSlot tmp index value
        let tmp ← move_into s.vector_ index s.size_ tmp (index + 1)
        pure ({ vector_ := tmp, size_ := s.size_ + 1, capacity_ := s.capacity_ * 2 }, index)
    else do
      let buf ← move_backward moved s.vector_ index s.size_ (s.size_ + 1)
      let buf ← writeSlot buf index value
      pure ({ s with vector_ := buf, size_ := s.size_ + 1 }, index)

/-- `PushBack(const Type& item)`: `Insert(cend(), item)`. At `cend()` nothing is
shifted before `item` is read, so a reference into the buffer gives the value it
had when the call was made (`Insert_at_end_of_ref`), and `item` is taken as
that value. -/
def PushBack [Inhabited α] (s : SimpleVector α) (item : α) : Except Fault (SimpleVector α) := do
  let r ← Insert s s.size_ (.outside item)
  pure r.1

/-- `PushBack(Type&& item)`: `Insert(cend(), std::move(item))`. -/
def PushBackMove [Inhabited α] (moved : α → α) (s : SimpleVector α) (item : α) :
    Except Fault (SimpleVector α) := do
  let r ← InsertMove moved s s.size_ item
  pure r.1

/-- `Erase`: `assert(!IsEmpty())`, the elements behind `pos` move one slot to the
front, `--size_`; the new state and the returned iterator. -/
def Erase (moved : α → α) (s : SimpleVector α) (pos : Nat) :
    Except Fault (SimpleVector α × Nat) :=
  if s.IsEmpty then .error .assertion
  else do
    let index := pos
    let buf ← move moved s.vector_ (index + 1) s.size_ index
    pure ({ s with vector_ := buf, size_ := s.size_ - 1 }, index)

/-- `Reserve`. -/
def Reserve [Inhabited α] (s : SimpleVector α) (new_capacity : Nat) : SimpleVector α :=
  if new_capacity ≤ s.capacity_ then s
  else { vector_ := allocate new_capacity, size_ := s.size_, capacity_ := new_capacity }

/-- `swap`: the two objects after the exchange, `*this` first. -/
def swap (s other : SimpleVector α) : SimpleVector α × SimpleVector α :=
  ({ vector_ := other.vector_, size_ := other.size_, capacity_ := other.capacity_ },
   { vector_ := s.vector_, size_ := s.size_, capacity_ := s.capacity_ })

/-- `operator==`. -/
def eq [DecidableEq α] (lhs rhs : SimpleVector α) : Except Fault Bool :=
  if lhs.GetSize = rhs.GetSize then equal lhs.vector_ 0 lhs.size_ rhs.vector_ 0
  else pure false

/-- `operator!=`. -/
def ne [DecidableEq α] (lhs rhs : SimpleVector α) : Except Fault Bool := do
  let r ← eq lhs rhs
  pure (!r)

/-- `operator=(const SimpleVector& rhs)`: the new value of `*this`. The temporary
that holds the former value of `*this` after the swap is destroyed. -/
def copy_assign [Inhabited α] [DecidableEq α] (s rhs : SimpleVector α) :
    Except Fault (SimpleVector α) := do
  if (← ne s rhs) then
    let tmp ← copy_construct rhs
    pure (swap s tmp).1
  else
    pure s

/-- `operator=(SimpleVector&& rhs)`: the new values of `*this` and of `rhs`. -/
def move_assign [DecidableEq α] (s rhs : SimpleVector α) :
    Except Fault (SimpleVector α × SimpleVector α) := do
  if (← ne s rhs) then
    pure ({ vector_ := rhs.vector_, size_ := rhs.size_, capacity_ := rhs.capacity_ },
          { vector_ := s.vector_, size_ := 0, capacity_ := 0 })
  else
    pure (s, rhs)

/-- `operator<`. -/
def lt [LT α] [DecidableRel (α := α) (· < ·)] (lhs rhs : SimpleVector α) :
    Except Fault Bool :=
  lexicographical_compare lhs.vector_ 0 lhs.size_ rhs.vector_ 0 rhs.size_

/-- `operator<=`: `!(rhs < lhs)`. -/
def le [LT α] [DecidableRel (α := α) (· < ·)] (lhs rhs : SimpleVector α) :
    Except Fault Bool := do
  let r ← lt rhs lhs
  pure (!r)

/-- `operator>`: `rhs < lhs`. -/
def gt [LT α] [DecidableRel (α := α) (· < ·)] (lhs rhs : SimpleVector α) :
    Except Fault Bool :=
  lt rhs lhs

/-- `operator>=`: `!(lhs < rhs)`. -/
def ge [LT α] [DecidableRel (α := α) (· < ·)] (lhs rhs : SimpleVector α) :
    Except Fault Bool := do
  let r ← lt lhs rhs
  pure (!r)

/-- The calls `PushBack(v1); ...; PushBack(vn)` in a row. -/
def push_all [Inhabited α] : SimpleVector α → List α → Except Fault (SimpleVector α)
  | s, [] => pure s
  | s, v :: vs => do
    let s ← PushBack s v
    push_all s vs

/-- The calls `PushBack(std::move(v1)); ...; PushBack(std::move(vn))` in a row. -/
def push_all_move [Inhabited α] (moved : α → α) :
    SimpleVector α → List α → Except Fault (SimpleVector α)
  | s, [] => pure s
  | s, v :: vs => do
    let s ← PushBackMove moved s v
    push_all_move moved s vs

/-! ## Predicates on states -/

/-- The size counter does not exceed the capacity counter. -/
def SizeWithinCapacity (s : SimpleVector α) : Prop :=
  s.size_ ≤ s.capacity_

instance (s : SimpleVector α) : Decidable (SizeWithinCapacity s) :=
  inferInstanceAs (Decidable (s.size_ ≤ s.capacity_))

/-- The capacity counter is the number of slots of the owned buffer. -/
def ExactCapacity (s : SimpleVector α) : Prop :=
  s.vector_.length = s.capacity_

instance (s : SimpleVector α) : Decidable (ExactCapacity s) :=
  inferInstanceAs (Decidable (s.vector_.length = s.capacity_))

/-- Every mutating operation that can fail returns when it is called on `s`
within its precondition: `Insert` at a position of `[begin, end]` and `PushBack`,
in both overloads, also `Insert` of a reference to a live element, `Erase` at the position of a live element, `PopBack` on a
non-empty sequence, `Resize`, and both assignments from a sequence whose size is
within its buffer. (`Clear`, `Reserve` and `swap` cannot fail.) -/
def ReturnsWithinPrecondition [Inhabited α] [DecidableEq α] (moved : α → α)
    (s : SimpleVector α) : Prop :=
  (∀ pos v, pos ≤ s.size_ →
    ∃ s', Insert s pos (.outside v) = .ok (s', pos) ∧
      InsertMove moved s pos v = .ok (s', pos)) ∧
  (∀ pos j, pos ≤ s.size_ → j < s.size_ → ∃ s', Insert s pos (.slot j) = .ok (s', pos)) ∧
  (∀ v, ∃ s', PushBack s v = .ok s' ∧ PushBackMove moved s v = .ok s') ∧
  (∀ pos, pos < s.size_ → ∃ s', Erase moved s pos = .ok (s', pos)) ∧
  (s.size_ ≠ 0 → ∃ s', PopBack s = .ok s') ∧
  (∀ k, ∃ s', Resize s k = .ok s') ∧
  (∀ t : SimpleVector α, t.size_ ≤ t.vector_.length →
    (∃ s', copy_assign s t = .ok s') ∧ (∃ s' t', move_assign s t = .ok (s', t')))

/-- The comparison `std::lexicographical_compare` makes, on the two ranges as
lists: the first pair of elements that is ordered either way decides, and when a
list runs out the first is smaller exactly when the second has elements left. -/
def lex_lt [LT α] [DecidableRel (α := α) (· < ·)] : List α → List α → Bool
  | [], [] => false
  | [], _ :: _ => true
  | _ :: _, [] => false
  | x :: xs, y :: ys => if x < y then true else if y < x then false else lex_lt xs ys

/-- The lexicographic order in the words of the spec: `xs` is a proper prefix of
`ys`, or there is a first index at which the two differ, and there the element
of `xs` is the smaller one. -/
def LexLess [LT α] (xs ys : List α) : Prop :=
  (xs.length < ys.length ∧ ys.take xs.length = xs) ∨
  ∃ i x y, xs[i]? = some x ∧ ys[i]? = some y ∧ xs.take i = ys.take i ∧ x < y

/-- The invariant of a run of `PushBack` calls: the counters are within the
buffer, and the capacity is 0 on the empty start state and afterwards the power
of two with `capacity_ / 2 < size_ <= capacity_`. -/
def DoublingInv (s : SimpleVector α) : Prop :=
  s.capacity_ ≤ s.vector_.length ∧ s.size_ ≤ s.capacity_ ∧
    ((s.size_ = 0 ∧ s.capacity_ = 0) ∨
      (0 < s.size_ ∧ s.capacity_ < 2 * s.size_ ∧ ∃ e, s.capacity_ = 2 ^ e))

end SimpleVector

variable {α : Type}

/-! ## Slots and the error monad -/

theorem ok_bind {β γ : Type} (x : β) (f : β → Except Fault γ) :
    (Except.ok x >>= f) = f x := rfl

theorem error_bind {β γ : Type} (e : Fault) (f : β → Except Fault γ) :
    (Except.error e >>= f) = Except.error e := rfl

theorem readSlot_of_lt (buf : List α) (i : Nat) (h : i < buf.length) :
    readSlot buf i = .ok buf[i] := by
  simp [readSlot, List.getElem?_eq_getElem h]

theorem writeSlot_of_lt (buf : List α) (i : Nat) (v : α) (h : i < buf.length) :
    writeSlot buf i v = .ok (buf.set i v) := by
  simp [writeSlot, h]

theorem deref_slot_of_lt (buf : List α) (j : Nat) (h : j < buf.length) :
    deref buf (.slot j) = .ok buf[j] :=
  readSlot_of_lt buf j h

theorem readSlot_of_le (buf : List α) (i : Nat) (h : buf.length ≤ i) :
    readSlot buf i = .error .out_of_bounds := by
  simp [readSlot, List.getElem?_eq_none h]

theorem writeSlot_of_le (buf : List α) (i : Nat) (v : α) (h : buf.length ≤ i) :
    writeSlot buf i v = .error .out_of_bounds := by
  simp [writeSlot, Nat.not_lt.mpr h]

/-! ## The closed forms, slot by slot -/

theorem getElem?_spliced (dst : List α) (d : Nat) (src : List α) (first n i : Nat)
    (h1 : first + n ≤ src.length) (h2 : d + n ≤ dst.length) :
    (spliced dst d src first n)[i]?
      = if i < d then dst[i]? else if i < d + n then src[first + (i - d)]? else dst[i]? := by
  have e1 : min d dst.length = d := by omega
  have e2 : min n (src.length - first) = n := by omega
  simp only [spliced, List.getElem?_append, List.getElem?_take, List.getElem?_drop,
    List.length_take, List.length_append, List.length_drop, e1, e2]
  split_ifs <;> first | rfl | omega | (congr 1; omega)

theorem length_spliced (dst : List α) (d : Nat) (src : List α) (first n : Nat)
    (h1 : first + n ≤ src.length) (h2 : d + n ≤ dst.length) :
    (spliced dst d src first n).length = dst.length := by
  simp only [spliced, List.length_append, List.length_take, List.length_drop]
  omega

theorem getElem?_shifted (buf : List α) (first n i : Nat) (h : first + n + 1 ≤ buf.length) :
    (shifted buf first n)[i]?
      = if i ≤ first then buf[i]? else if i ≤ first + n then buf[i - 1]? else buf[i]? := by
  have e1 : min (first + 1) buf.length = first + 1 := by omega
  have e2 : min n (buf.length - first) = n := by omega
  simp only [shifted, List.getElem?_append, List.getElem?_take, List.getElem?_drop,
    List.length_take, List.length_append, List.length_drop, e1, e2]
  split_ifs <;> first | rfl | omega | (congr 1; omega)

theorem length_shifted (buf : List α) (first n : Nat) (h : first + n + 1 ≤ buf.length) :
    (shifted buf first n).length = buf.length := by
  simp only [shifted, List.length_append, List.length_take, List.length_drop]
  omega

theorem getElem?_closed_up (buf : List α) (d n i : Nat) (h : d + n + 1 ≤ buf.length) :
    (closed_up buf d n)[i]?
      = if i < d then buf[i]? else if i < d + n then buf[i + 1]? else buf[i]? := by
  have e1 : min d buf.length = d := by omega
  have e2 : min n (buf.length - (d + 1)) = n := by omega
  simp only [closed_up, List.getElem?_append, List.getElem?_take, List.getElem?_drop,
    List.length_take, List.length_append, List.length_drop, e1, e2]
  split_ifs <;> first | rfl | omega | (congr 1; omega)

theorem length_closed_up (buf : List α) (d n : Nat) (h : d + n + 1 ≤ buf.length) :
    (closed_up buf d n).length = buf.length := by
  simp only [closed_up, List.length_append, List.length_take, List.length_drop]
  omega

/-- Writing a slot to the value it holds changes nothing. -/
theorem set_same (buf : List α) (i : Nat) (x : α) (hx : buf[i]? = some x) :
    buf.set i x = buf := by
  apply List.ext_getElem?
  intro j
  have hlt : i < buf.length := by
    by_contra hc
    rw [List.getElem?_eq_none (by omega)] at hx
    cases hx
  by_cases hij : i = j
  · subst hij
    simp [hlt, hx]
  · simp [hij]

/-! ## The loops in closed form -/

/-- Copying `n` elements into another buffer replaces the `n` slots from
`d_first` on by the `n` source elements from `first` on. -/
theorem copy_loop_eq (src : List α) : ∀ (n first d : Nat) (dst : List α),
    first + n ≤ src.length → d + n ≤ dst.length →
    copy_loop src n first d dst = .ok (spliced dst d src first n)
  | 0, first, d, dst, _, _ => by simp [copy_loop, spliced]
  | n + 1, first, d, dst, h1, h2 => by
    have hf : first < src.length := by omega
    have hd : d < dst.length := by omega
    simp only [copy_loop, readSlot_of_lt src first hf, writeSlot_of_lt dst d _ hd]
    rw [ok_bind, ok_bind, copy_loop_eq src n (first + 1) (d + 1) _ (by omega) (by simp; omega)]
    congr 1
    apply List.ext_getElem?
    intro i
    have hx : src[first]? = some src[first] := List.getElem?_eq_getElem hf
    generalize src[first] = x at hx ⊢
    simp only [getElem?_spliced _ _ _ _ _ _ h1 h2,
      getElem?_spliced (dst.set d x) (d + 1) src (first + 1) n i (by omega) (by simp; omega),
      List.getElem?_set, hd, if_true]
    split_ifs <;> first | rfl | omega | (congr 1; omega) | (rw [← hx]; congr 1; omega)

theorem copy_eq (src : List α) (first last : Nat) (dst : List α) (d : Nat)
    (h0 : first ≤ last) (h1 : last ≤ src.length) (h2 : d + (last - first) ≤ dst.length) :
    copy src first last dst d = .ok (spliced dst d src first (last - first)) := by
  unfold copy
  rw [if_neg (by omega), copy_loop_eq src _ _ _ _ (by omega) h2]

/-- Copying backward by one slot inside a buffer keeps every element of the
range: no source slot is overwritten before it has been read. -/
theorem copy_backward_loop_eq (first : Nat) : ∀ (n : Nat) (buf : List α),
    first + n + 1 ≤ buf.length →
    copy_backward_loop first n (first + n + 1) buf = .ok (shifted buf first n)
  | 0, buf, _ => by simp [copy_backward_loop, shifted]
  | n + 1, buf, h => by
    have hr : first + n < buf.length := by omega
    have hw : first + n + 1 < buf.length := by omega
    show copy_backward_loop first (n + 1) ((first + n + 1) + 1) buf = _
    simp only [copy_backward_loop, readSlot_of_lt buf _ hr, writeSlot_of_lt buf _ _ hw]
    rw [ok_bind, ok_bind, copy_backward_loop_eq first n _ (by simp; omega)]
    congr 1
    apply List.ext_getElem?
    intro i
    have hx : buf[first + n]? = some buf[first + n] := List.getElem?_eq_getElem hr
    generalize buf[first + n] = x at hx ⊢
    simp only [getElem?_shifted _ _ _ _ h,
      getElem?_shifted (buf.set (first + n + 1) x) first n i (by simp; omega),
      List.getElem?_set, hw, if_true]
    split_ifs <;> first | rfl | omega | (rw [← hx]; congr 1; omega)

theorem copy_backward_eq (buf : List α) (first last : Nat)
    (h0 : first ≤ last) (h1 : last + 1 ≤ buf.length) :
    copy_backward buf first last (last + 1) = .ok (shifted buf first (last - first)) := by
  unfold copy_backward
  have e : last + 1 = first + (last - first) + 1 := by omega
  rw [if_neg (by omega), e, copy_backward_loop_eq first _ buf (by omega)]

/-- Moving backward by one slot gives the same buffer as copying backward, up to
the content of slot `first`, which may be left moved-from. -/
theorem move_backward_loop_eq (moved : α → α) (first : Nat) : ∀ (n : Nat) (buf : List α),
    first + n + 1 ≤ buf.length →
    ∃ y, move_backward_loop moved first n (first + n + 1) buf
      = .ok ((shifted buf first n).set first y)
  | 0, buf, h => by
    have h0 : first < buf.length := by omega
    refine ⟨buf[first], ?_⟩
    simp only [move_backward_loop, shifted, List.take_zero, List.append_nil, Nat.add_zero,
      List.take_append_drop]
    rw [set_same buf first _ (List.getElem?_eq_getElem h0)]
  | n + 1, buf, h => by
    have hr : first + n < buf.length := by omega
    have hw : first + n + 1 < buf.length := by omega
    obtain ⟨y, hy⟩ := move_backward_loop_eq moved first n
      ((buf.set (first + n + 1) buf[first + n]).set (first + n) (moved buf[first + n]))
      (by simp; omega)
    refine ⟨y, ?_⟩
    show move_backward_loop moved first (n + 1) ((first + n + 1) + 1) buf = _
    simp only [move_backward_loop, readSlot_of_lt buf _ hr, writeSlot_of_lt buf _ _ hw]
    have hw2 : first + n < (buf.set (first + n + 1) buf[first + n]).length := by simp; omega
    rw [ok_bind, ok_bind, writeSlot_of_lt _ _ _ hw2, ok_bind, hy]
    congr 1
    apply List.ext_getElem?
    intro i
    have hx : buf[first + n]? = some buf[first + n] := List.getElem?_eq_getElem hr
    generalize buf[first + n] = x at hx ⊢
    have hl : ((buf.set (first + n + 1) x).set (first + n) (moved x)).length = buf.length := by
      simp
    simp only [List.getElem?_set, getElem?_shifted _ _ _ _ h,
      getElem?_shifted _ first n i (by rw [hl]; omega), length_shifted _ _ _ h,
      length_shifted _ first n (by rw [hl]; omega), List.length_set, hr, hw, if_true]
    split_ifs <;> first | rfl | omega | (rw [← hx]; congr 1; omega)

theorem move_backward_eq (moved : α → α) (buf : List α) (first last : Nat)
    (h0 : first ≤ last) (h1 : last + 1 ≤ buf.length) :
    ∃ y, move_backward moved buf first last (last + 1)
      = .ok ((shifted buf first (last - first)).set first y) := by
  obtain ⟨y, hy⟩ := move_backward_loop_eq moved first (last - first) buf (by omega)
  refine ⟨y, ?_⟩
  unfold move_backward
  have e : last + 1 = first + (last - first) + 1 := by omega
  rw [if_neg (by omega), e, hy]

/-- Moving forward by one slot to the left inside a buffer keeps every element
of the range; the last slot of the range may be left moved-from. -/
theorem move_loop_eq (moved : α → α) : ∀ (n d : Nat) (buf : List α),
    d + n + 1 ≤ buf.length →
    ∃ y, move_loop moved n (d + 1) d buf = .ok ((closed_up buf d n).set (d + n) y)
  | 0, d, buf, h => by
    have h0 : d < buf.length := by omega
    refine ⟨buf[d], ?_⟩
    simp only [move_loop, closed_up, List.take_zero, List.append_nil, Nat.add_zero,
      List.take_append_drop]
    rw [set_same buf d _ (List.getElem?_eq_getElem h0)]
  | n + 1, d, buf, h => by
    have hr : d + 1 < buf.length := by omega
    have hw : d < buf.length := by omega
    obtain ⟨y, hy⟩ := move_loop_eq moved n (d + 1)
      ((buf.set d buf[d + 1]).set (d + 1) (moved buf[d + 1])) (by simp; omega)
    refine ⟨y, ?_⟩
    simp only [move_loop, readSlot_of_lt buf _ hr, writeSlot_of_lt buf _ _ hw]
    have hw2 : d + 1 < (buf.set d buf[d + 1]).length := by simp; omega
    rw [ok_bind, ok_bind, writeSlot_of_lt _ _ _ hw2, ok_bind, hy]
    congr 1
    apply List.ext_getElem?
    intro i
    have hx : buf[d + 1]? = some buf[d + 1] := List.getElem?_eq_getElem hr
    generalize buf[d + 1] = x at hx ⊢
    have hl : ((buf.set d x).set (d + 1) (moved x)).length = buf.length := by simp
    simp only [List.getElem?_set, getElem?_closed_up _ _ _ _ h,
      getElem?_closed_up _ (d + 1) n _ (by rw [hl]; omega), length_closed_up _ _ _ h,
      length_closed_up _ (d + 1) n (by rw [hl]; omega), List.length_set, hr, hw, if_true]
    split_ifs <;> first | rfl | omega | (rw [← hx]; congr 1; omega)

/-- Filling `n` slots from `first` on. -/
theorem fill_loop_eq (v : α) : ∀ (n first : Nat) (buf : List α),
    first + n ≤ buf.length →
    fill_loop v n first buf
      = .ok (buf.take first ++ List.replicate n v ++ buf.drop (first + n))
  | 0, first, buf, _ => by simp [fill_loop]
  | n + 1, first, buf, h => by
    have hw : first < buf.length := by omega
    simp only [fill_loop, writeSlot_of_lt buf _ _ hw]
    rw [ok_bind, fill_loop_eq v n (first + 1) _ (by simp; omega)]
    congr 1
    apply List.ext_getElem?
    intro i
    have e1 : min first buf.length = first := by omega
    have e2 : min (first + 1) buf.length = first + 1 := by omega
    simp only [List.getElem?_append, List.getElem?_take, List.getElem?_drop, List.getElem?_set,
      List.getElem?_replicate, List.length_take, List.length_append, List.length_drop,
      List.length_set, List.length_replicate, e1, e2, hw, if_true]
    split_ifs <;> first | rfl | omega | (congr 1; omega)

theorem fill_eq (buf : List α) (first last : Nat) (v : α)
    (h0 : first ≤ last) (h1 : last ≤ buf.length) :
    fill buf first last v
      = .ok (buf.take first ++ List.replicate (last - first) v ++ buf.drop last) := by
  unfold fill
  rw [if_neg (by omega), fill_loop_eq v _ _ _ (by omega)]
  congr 3
  omega

/-- Filling past the end of the block is a write outside it. -/
theorem fill_loop_overflow (v : α) : ∀ (n first : Nat) (buf : List α),
    first ≤ buf.length → buf.length < first + n →
    fill_loop v n first buf = .error .out_of_bounds
  | 0, first, buf, h1, h2 => by omega
  | n + 1, first, buf, h1, h2 => by
    by_cases hw : first < buf.length
    · rw [fill_loop, writeSlot_of_lt buf first v hw, ok_bind]
      exact fill_loop_overflow v n (first + 1) (buf.set first v)
        (by rw [List.length_set]; omega) (by rw [List.length_set]; omega)
    · rw [fill_loop, writeSlot_of_le buf first v (by omega), error_bind]

/-- The loop of `std::equal` decides whether the two compared ranges hold the
same elements. -/
theorem equal_loop_eq [DecidableEq α] (a b : List α) : ∀ (n first1 first2 : Nat),
    first1 + n ≤ a.length → first2 + n ≤ b.length →
    equal_loop a b n first1 first2
      = .ok (decide ((a.drop first1).take n = (b.drop first2).take n))
  | 0, _, _, _, _ => by simp [equal_loop]
  | n + 1, first1, first2, h1, h2 => by
    have ha : first1 < a.length := by omega
    have hb : first2 < b.length := by omega
    simp only [equal_loop, readSlot_of_lt a _ ha, readSlot_of_lt b _ hb]
    rw [ok_bind, ok_bind, List.drop_eq_getElem_cons ha, List.drop_eq_getElem_cons hb,
      List.take_succ_cons, List.take_succ_cons]
    by_cases hxy : a[first1] = b[first2]
    · rw [if_pos hxy, equal_loop_eq a b n _ _ (by omega) (by omega)]
      simp [hxy]
    · rw [if_neg hxy]
      simp [hxy]

namespace SimpleVector

/-! ## Insert -/

theorem getElem?_inserted (L : List α) (k i : Nat) (v : α) (h : k ≤ L.length) :
    (L.take k ++ v :: L.drop k)[i]?
      = if i < k then L[i]? else if i = k then some v else L[i - 1]? := by
  have e1 : min k L.length = k := by omega
  simp only [List.getElem?_append, List.getElem?_take, List.length_take, List.getElem?_cons,
    List.getElem?_drop, e1]
  split_ifs <;> first | rfl | omega | (congr 1; omega)

theorem length_live (s : SimpleVector α) (h : s.size_ ≤ s.vector_.length) :
    s.live.length = s.size_ := by
  simp [live, h]

/-- What the copy overload of `Insert` does on a state whose counters are within
the buffer, for an argument that refers to whatever: `x` is what the reference
gives where the source reads it, in the old block when the buffer is
reallocated, in the shifted block when there is room. The buffer is reallocated
exactly when it was full, and the first `size_ + 1` slots are the old live
elements with `x` put in at `index`. -/
theorem Insert_result_ref [Inhabited α] (s : SimpleVector α) (index : Nat) (r : Ref α) (x : α)
    (hsize : s.size_ ≤ s.capacity_) (hbuf : s.capacity_ ≤ s.vector_.length)
    (hidx : index ≤ s.size_)
    (hx : deref (if s.size_ = s.capacity_ then s.vector_
      else shifted s.vector_ index (s.size_ - index)) r = .ok x) :
    ∃ buf : List α,
      Insert s index r
        = .ok (⟨buf, s.size_ + 1,
            if s.capacity_ = 0 then 1
            else if s.size_ = s.capacity_ then s.capacity_ * 2 else s.capacity_⟩, index) ∧
      buf.length
        = (if s.size_ = s.capacity_ then (if s.capacity_ = 0 then 1 else s.capacity_ * 2)
           else s.vector_.length) ∧
      buf.take (s.size_ + 1) = s.live.take index ++ x :: s.live.drop index := by
  by_cases hfull : s.size_ = s.capacity_
  · rw [if_pos hfull] at hx
    by_cases h0 : s.capacity_ = 0
    · have hs0 : s.size_ = 0 := by omega
      have hi0 : index = 0 := by omega
      subst hi0
      refine ⟨[x], ?_, ?_, ?_⟩
      · simp only [Insert, if_neg (not_not.mpr hidx), if_pos hfull, if_pos h0, hx, ok_bind]
        simp [hs0, h0, allocate, writeSlot]
      · simp [hfull, h0]
      · simp [live, hs0]
    · have hlen : (allocate (s.capacity_ * 2) : List α).length = s.capacity_ * 2 := by
        simp [allocate]
      have c1 : copy s.vector_ 0 index (allocate (s.capacity_ * 2)) 0
          = .ok (spliced (allocate (s.capacity_ * 2)) 0 s.vector_ 0 index) :=
        copy_eq _ _ _ _ _ (by omega) (by omega) (by rw [hlen]; omega)
      have l1 : (spliced (allocate (s.capacity_ * 2)) 0 s.vector_ 0 index).length
          = s.capacity_ * 2 := by
        rw [length_spliced _ _ _ _ _ (by omega) (by rw [hlen]; omega), hlen]
      have c2 : copy s.vector_ index s.size_
          ((spliced (allocate (s.capacity_ * 2)) 0 s.vector_ 0 index).set index x) (index + 1)
          = .ok (spliced ((spliced (allocate (s.capacity_ * 2)) 0 s.vector_ 0 index).set index x)
              (index + 1) s.vector_ index (s.size_ - index)) :=
        copy_eq _ _ _ _ _ (by omega) (by omega) (by rw [List.length_set, l1]; omega)
      refine ⟨spliced ((spliced (allocate (s.capacity_ * 2)) 0 s.vector_ 0 index).set index x)
        (index + 1) s.vector_ index (s.size_ - index), ?_, ?_, ?_⟩
      · simp only [Insert, if_neg (not_not.mpr hidx), if_pos hfull, if_neg h0]
        rw [c1, ok_bind, hx, ok_bind, writeSlot_of_lt _ _ _ (by rw [l1]; omega), ok_bind, c2]
        rfl
      · rw [length_spliced _ _ _ _ _ (by omega) (by rw [List.length_set, l1]; omega),
          List.length_set, l1]
        simp [hfull, h0]
      · apply List.ext_getElem?
        intro i
        have hL : (s.vector_.take s.size_).length = s.size_ := by
          rw [List.length_take]
          omega
        have g1 := getElem?_inserted (s.vector_.take s.size_) index i x (by omega)
        have g2 := getElem?_spliced
          ((spliced (allocate (s.capacity_ * 2)) 0 s.vector_ 0 index).set index x)
          (index + 1) s.vector_ index (s.size_ - index) i (by omega)
          (by rw [List.length_set, l1]; omega)
        have g3 := getElem?_spliced (allocate (s.capacity_ * 2)) 0 s.vector_ 0 index i
          (by omega) (by rw [hlen]; omega)
        rw [live, g1]
        simp only [List.getElem?_take, g2, List.getElem?_set, l1, g3]
        split_ifs <;> first | rfl | omega | (congr 1; omega)
  · rw [if_neg hfull] at hx
    have hlt : s.size_ < s.capacity_ := by omega
    have c1 := copy_backward_eq s.vector_ index s.size_ hidx (by omega)
    have l1 : (shifted s.vector_ index (s.size_ - index)).length = s.vector_.length :=
      length_shifted _ _ _ (by omega)
    have hc0 : s.capacity_ ≠ 0 := by omega
    refine ⟨(shifted s.vector_ index (s.size_ - index)).set index x, ?_, ?_, ?_⟩
    · simp only [Insert, if_neg (not_not.mpr hidx), if_neg hfull, if_neg hc0]
      rw [c1, ok_bind, hx, ok_bind, writeSlot_of_lt _ _ _ (by rw [l1]; omega), ok_bind]
      rfl
    · simp [hfull, l1]
    · apply List.ext_getElem?
      intro i
      have hL : (s.vector_.take s.size_).length = s.size_ := by
        rw [List.length_take]
        omega
      have g1 := getElem?_inserted (s.vector_.take s.size_) index i x (by omega)
      have g2 := getElem?_shifted s.vector_ index (s.size_ - index) i (by omega)
      rw [live, g1]
      simp only [List.getElem?_take, List.getElem?_set, l1, g2]
      split_ifs <;> first | rfl | omega

/-- The move overload of `Insert` returns what the copy overload returns for the
same value held outside the sequence. -/
theorem InsertMove_eq_Insert [Inhabited α] (moved : α → α) (s : SimpleVector α) (index : Nat)
    (v : α) (hsize : s.size_ ≤ s.capacity_) (hbuf : s.capacity_ ≤ s.vector_.length)
    (hidx : index ≤ s.size_) :
    InsertMove moved s index v = Insert s index (.outside v) := by
  by_cases hfull : s.size_ = s.capacity_
  · by_cases h0 : s.capacity_ = 0
    · simp only [Insert, InsertMove, if_pos hfull, if_pos h0, deref, ok_bind]
    · simp only [Insert, InsertMove, move_into, if_pos hfull, if_neg h0, deref, ok_bind]
  · have c1 := copy_backward_eq s.vector_ index s.size_ hidx (by omega)
    obtain ⟨y, c2⟩ := move_backward_eq moved s.vector_ index s.size_ hidx (by omega)
    have l1 : (shifted s.vector_ index (s.size_ - index)).length = s.vector_.length :=
      length_shifted _ _ _ (by omega)
    simp only [Insert, InsertMove, if_neg (not_not.mpr hidx), if_neg hfull, deref]
    rw [c1, c2, ok_bind, ok_bind, ok_bind,
      writeSlot_of_lt _ _ _ (by rw [List.length_set, l1]; omega),
      writeSlot_of_lt _ _ _ (by rw [l1]; omega), ok_bind, ok_bind, List.set_set]

/-- What `Insert` does on a state whose counters are within the buffer, for a
value held outside the sequence: both overloads return the same state and
iterator, the buffer is reallocated exactly when it was full, and the first
`size_ + 1` slots are the old live elements with `v` put in at `index`. -/
theorem Insert_result [Inhabited α] (moved : α → α) (s : SimpleVector α) (index : Nat) (v : α)
    (hsize : s.size_ ≤ s.capacity_) (hbuf : s.capacity_ ≤ s.vector_.length)
    (hidx : index ≤ s.size_) :
    ∃ buf : List α,
      Insert s index (.outside v)
        = .ok (⟨buf, s.size_ + 1,
            if s.capacity_ = 0 then 1
            else if s.size_ = s.capacity_ then s.capacity_ * 2 else s.capacity_⟩, index) ∧
      InsertMove moved s index v = Insert s index (.outside v) ∧
      buf.length
        = (if s.size_ = s.capacity_ then (if s.capacity_ = 0 then 1 else s.capacity_ * 2)
           else s.vector_.length) ∧
      buf.take (s.size_ + 1) = s.live.take index ++ v :: s.live.drop index := by
  obtain ⟨buf, h1, h2, h3⟩ := Insert_result_ref s index (.outside v) v hsize hbuf hidx rfl
  exact ⟨buf, h1, InsertMove_eq_Insert moved s index v hsize hbuf hidx, h2, h3⟩

/-- At `end()` the copy overload of `Insert` reads its argument from a block in
which nothing has been shifted: a reference gives the value it had when the call
was made, in every state. -/
theorem Insert_at_end_of_ref [Inhabited α] (s : SimpleVector α) (r : Ref α) (v : α)
    (hr : deref s.vector_ r = .ok v) :
    Insert s s.size_ r = Insert s s.size_ (.outside v) := by
  have hv : deref s.vector_ (.outside v) = .ok v := rfl
  by_cases hfull : s.size_ = s.capacity_
  · by_cases h0 : s.capacity_ = 0
    · simp only [Insert, if_pos hfull, if_pos h0, hr, hv]
    · simp only [Insert, if_pos hfull, if_neg h0, hr, hv]
  · simp only [Insert, if_neg hfull, copy_backward, Nat.lt_irrefl, if_false, Nat.sub_self,
      copy_backward_loop, ok_bind, hr, hv]

/-! ## Erase -/

/-- What `Erase` does at the position of a live element: the elements behind it
close up, and the slot that was the last live one may be left moved-from. -/
theorem Erase_result (moved : α → α) (s : SimpleVector α) (index : Nat)
    (hbuf : s.size_ ≤ s.vector_.length) (hidx : index < s.size_) :
    ∃ y, Erase moved s index
      = .ok (⟨(closed_up s.vector_ index (s.size_ - (index + 1))).set (s.size_ - 1) y,
          s.size_ - 1, s.capacity_⟩, index) := by
  obtain ⟨y, hy⟩ := move_loop_eq moved (s.size_ - (index + 1)) index s.vector_ (by omega)
  refine ⟨y, ?_⟩
  have he : s.IsEmpty = false := by
    simp only [IsEmpty, beq_eq_false_iff_ne]
    omega
  have e : index + (s.size_ - (index + 1)) = s.size_ - 1 := by omega
  unfold Erase move
  simp only [he, Bool.false_eq_true, if_false]
  rw [if_neg (by omega), hy, ok_bind, e]
  rfl

theorem live_closed_up (s : SimpleVector α) (index : Nat) (y : α)
    (hbuf : s.size_ ≤ s.vector_.length) (hidx : index < s.size_) :
    ((closed_up s.vector_ index (s.size_ - (index + 1))).set (s.size_ - 1) y).take (s.size_ - 1)
      = s.live.take index ++ s.live.drop (index + 1) := by
  apply List.ext_getElem?
  intro i
  have e1 : min index (min s.size_ s.vector_.length) = index := by omega
  simp only [live, List.getElem?_take, List.getElem?_set, List.getElem?_append,
    List.getElem?_drop, List.length_take, e1,
    getElem?_closed_up _ _ _ _ (by omega : index + (s.size_ - (index + 1)) + 1 ≤ s.vector_.length)]
  split_ifs <;> first | rfl | omega | (congr 1; omega)

end SimpleVector

/-! ## What a normal return tells, whatever the state was -/

theorem bind_eq_ok {β γ : Type} (x : Except Fault β) (f : β → Except Fault γ) (y : γ) :
    (x >>= f) = .ok y ↔ ∃ a, x = .ok a ∧ f a = .ok y := by
  cases x with
  | error e => simp [error_bind]
  | ok a => simp [ok_bind]

theorem writeSlot_length (buf : List α) (i : Nat) (v : α) (r : List α)
    (h : writeSlot buf i v = .ok r) : r.length = buf.length := by
  unfold writeSlot at h
  split_ifs at h
  cases h
  simp

theorem copy_loop_length (src : List α) : ∀ (n first d : Nat) (dst r : List α),
    copy_loop src n first d dst = .ok r → r.length = dst.length
  | 0, _, _, dst, r, h => by
    cases h
    rfl
  | n + 1, first, d, dst, r, h => by
    rw [copy_loop, bind_eq_ok] at h
    obtain ⟨x, _, h⟩ := h
    rw [bind_eq_ok] at h
    obtain ⟨b, hb, h⟩ := h
    rw [copy_loop_length src n _ _ _ _ h, writeSlot_length _ _ _ _ hb]

theorem copy_length (src : List α) (first last : Nat) (dst : List α) (d : Nat) (r : List α)
    (h : copy src first last dst d = .ok r) : r.length = dst.length := by
  unfold copy at h
  split_ifs at h
  exact copy_loop_length src _ _ _ _ _ h

theorem copy_backward_loop_length (first : Nat) : ∀ (n d_last : Nat) (buf r : List α),
    copy_backward_loop first n d_last buf = .ok r → r.length = buf.length
  | 0, _, buf, r, h => by
    cases h
    rfl
  | n + 1, 0, buf, r, h => by
    cases h
  | n + 1, d + 1, buf, r, h => by
    rw [copy_backward_loop, bind_eq_ok] at h
    obtain ⟨x, _, h⟩ := h
    rw [bind_eq_ok] at h
    obtain ⟨b, hb, h⟩ := h
    rw [copy_backward_loop_length first n _ _ _ h, writeSlot_length _ _ _ _ hb]

theorem copy_backward_length (buf : List α) (first last d_last : Nat) (r : List α)
    (h : copy_backward buf first last d_last = .ok r) : r.length = buf.length := by
  unfold copy_backward at h
  split_ifs at h
  exact copy_backward_loop_length first _ _ _ _ h

theorem move_backward_loop_length (moved : α → α) (first : Nat) :
    ∀ (n d_last : Nat) (buf r : List α),
    move_backward_loop moved first n d_last buf = .ok r → r.length = buf.length
  | 0, _, buf, r, h => by
    cases h
    rfl
  | n + 1, 0, buf, r, h => by
    cases h
  | n + 1, d + 1, buf, r, h => by
    rw [move_backward_loop, bind_eq_ok] at h
    obtain ⟨x, _, h⟩ := h
    rw [bind_eq_ok] at h
    obtain ⟨b, hb, h⟩ := h
    rw [bind_eq_ok] at h
    obtain ⟨c, hc, h⟩ := h
    rw [move_backward_loop_length moved first n _ _ _ h, writeSlot_length _ _ _ _ hc,
      writeSlot_length _ _ _ _ hb]

theorem move_backward_length (moved : α → α) (buf : List α) (first last d_last : Nat)
    (r : List α) (h : move_backward moved buf first last d_last = .ok r) :
    r.length = buf.length := by
  unfold move_backward at h
  split_ifs at h
  exact move_backward_loop_length moved first _ _ _ _ h

theorem move_loop_length (moved : α → α) : ∀ (n first d : Nat) (buf r : List α),
    move_loop moved n first d buf = .ok r → r.length = buf.length
  | 0, _, _, buf, r, h => by
    cases h
    rfl
  | n + 1, first, d, buf, r, h => by
    rw [move_loop, bind_eq_ok] at h
    obtain ⟨x, _, h⟩ := h
    rw [bind_eq_ok] at h
    obtain ⟨b, hb, h⟩ := h
    rw [bind_eq_ok] at h
    obtain ⟨c, hc, h⟩ := h
    rw [move_loop_length moved n _ _ _ _ h, writeSlot_length _ _ _ _ hc,
      writeSlot_length _ _ _ _ hb]

theorem move_length (moved : α → α) (buf : List α) (first last d : Nat) (r : List α)
    (h : move moved buf first last d = .ok r) : r.length = buf.length ∧ first ≤ last := by
  unfold move at h
  split_ifs at h with hlt
  exact ⟨move_loop_length moved _ _ _ _ _ h, by omega⟩

theorem fill_loop_length (v : α) : ∀ (n first : Nat) (buf r : List α),
    fill_loop v n first buf = .ok r → r.length = buf.length
  | 0, _, buf, r, h => by
    cases h
    rfl
  | n + 1, first, buf, r, h => by
    rw [fill_loop, bind_eq_ok] at h
    obtain ⟨b, hb, h⟩ := h
    rw [fill_loop_length v n _ _ _ h, writeSlot_length _ _ _ _ hb]

theorem fill_length (buf : List α) (first last : Nat) (v : α) (r : List α)
    (h : fill buf first last v = .ok r) : r.length = buf.length := by
  unfold fill at h
  split_ifs at h
  exact fill_loop_length v _ _ _ _ h

theorem length_allocate [Inhabited α] (n : Nat) : (allocate n : List α).length = n := by
  simp [allocate]

namespace SimpleVector

/-- A normal return of `Insert`: the iterator returned, the counters and the
number of slots afterwards. -/
theorem Insert_frame [Inhabited α] (s : SimpleVector α) (pos : Nat) (v : Ref α)
    (s' : SimpleVector α) (r : Nat) (h : Insert s pos v = .ok (s', r)) :
    r = pos ∧ pos ≤ s.size_ ∧ s'.size_ = s.size_ + 1 ∧
    s'.capacity_ = (if s.size_ = s.capacity_ then (if s.capacity_ = 0 then 1 else s.capacity_ * 2)
      else s.capacity_) ∧
    s'.vector_.length = (if s.size_ = s.capacity_ then
      (if s.capacity_ = 0 then 1 else s.capacity_ * 2) else s.vector_.length) := by
  unfold Insert at h
  split_ifs at h with hpos hfull h0
  · simp only [bind_eq_ok] at h
    obtain ⟨x, _, b, hb, h⟩ := h
    cases h
    have := writeSlot_length _ _ _ _ hb
    rw [length_allocate] at this
    rw [if_pos hfull, if_pos h0, if_pos hfull]
    exact ⟨by omega, by omega, by show 1 = _; omega, rfl, this⟩
  · simp only [bind_eq_ok] at h
    obtain ⟨b1, hb1, x, _, b2, hb2, b3, hb3, h⟩ := h
    cases h
    have l1 := copy_length _ _ _ _ _ _ hb1
    have l2 := writeSlot_length _ _ _ _ hb2
    have l3 := copy_length _ _ _ _ _ _ hb3
    rw [length_allocate] at l1
    rw [if_pos hfull, if_neg h0, if_pos hfull]
    exact ⟨rfl, by omega, rfl, rfl, by show b3.length = _; omega⟩
  · simp only [bind_eq_ok] at h
    obtain ⟨b1, hb1, x, _, b2, hb2, h⟩ := h
    cases h
    have l1 := copy_backward_length _ _ _ _ _ hb1
    have l2 := writeSlot_length _ _ _ _ hb2
    rw [if_neg hfull, if_neg hfull]
    exact ⟨rfl, by omega, rfl, rfl, by show b2.length = _; omega⟩

/-- A normal return of the move overload of `Insert`. -/
theorem InsertMove_frame [Inhabited α] (moved : α → α) (s : SimpleVector α) (pos : Nat) (v : α)
    (s' : SimpleVector α) (r : Nat) (h : InsertMove moved s pos v = .ok (s', r)) :
    r = pos ∧ pos ≤ s.size_ ∧ s'.size_ = s.size_ + 1 ∧
    s'.capacity_ = (if s.size_ = s.capacity_ then (if s.capacity_ = 0 then 1 else s.capacity_ * 2)
      else s.capacity_) ∧
    s'.vector_.length = (if s.size_ = s.capacity_ then
      (if s.capacity_ = 0 then 1 else s.capacity_ * 2) else s.vector_.length) := by
  unfold InsertMove at h
  split_ifs at h with hpos hfull h0
  · simp only [bind_eq_ok] at h
    obtain ⟨b, hb, h⟩ := h
    cases h
    have := writeSlot_length _ _ _ _ hb
    rw [length_allocate] at this
    rw [if_pos hfull, if_pos h0, if_pos hfull]
    exact ⟨by omega, by omega, by show 1 = _; omega, rfl, this⟩
  · simp only [bind_eq_ok, move_into] at h
    obtain ⟨b1, hb1, b2, hb2, b3, hb3, h⟩ := h
    cases h
    have l1 := copy_length _ _ _ _ _ _ hb1
    have l2 := writeSlot_length _ _ _ _ hb2
    have l3 := copy_length _ _ _ _ _ _ hb3
    rw [length_allocate] at l1
    rw [if_pos hfull, if_neg h0, if_pos hfull]
    exact ⟨rfl, by omega, rfl, rfl, by show b3.length = _; omega⟩
  · simp only [bind_eq_ok] at h
    obtain ⟨b1, hb1, b2, hb2, h⟩ := h
    cases h
    have l1 := move_backward_length _ _ _ _ _ _ hb1
    have l2 := writeSlot_length _ _ _ _ hb2
    rw [if_neg hfull, if_neg hfull]
    exact ⟨rfl, by omega, rfl, rfl, by show b2.length = _; omega⟩

/-- A normal return of `Erase`. -/
theorem Erase_frame (moved : α → α) (s : SimpleVector α) (pos : Nat)
    (s' : SimpleVector α) (r : Nat) (h : Erase moved s pos = .ok (s', r)) :
    r = pos ∧ pos < s.size_ ∧ s'.size_ = s.size_ - 1 ∧ s'.capacity_ = s.capacity_ ∧
    s'.vector_.length = s.vector_.length := by
  unfold Erase at h
  split_ifs at h with he
  simp only [bind_eq_ok] at h
  obtain ⟨b, hb, h⟩ := h
  cases h
  obtain ⟨l1, l2⟩ := move_length _ _ _ _ _ _ hb
  exact ⟨rfl, by omega, rfl, rfl, l1⟩

/-- A normal return of `PopBack`. -/
theorem PopBack_frame (s s' : SimpleVector α) (h : PopBack s = .ok s') :
    s.size_ ≠ 0 ∧ s' = ⟨s.vector_, s.size_ - 1, s.capacity_⟩ := by
  unfold PopBack at h
  split_ifs at h with he
  cases h
  simp only [IsEmpty, beq_iff_eq] at he
  exact ⟨he, rfl⟩

/-- A normal return of `Resize`. -/
theorem Resize_frame [Inhabited α] (s : SimpleVector α) (k : Nat) (s' : SimpleVector α)
    (h : Resize s k = .ok s') :
    s'.size_ = k ∧
    s'.capacity_ = (if k ≤ s.capacity_ then s.capacity_ else max k (s.capacity_ * 2)) ∧
    s'.vector_.length = (if k ≤ s.capacity_ then s.vector_.length else k) := by
  unfold Resize at h
  split_ifs at h with hk hlt
  · cases h
    rw [if_pos hk, if_pos hk]
    exact ⟨rfl, rfl, rfl⟩
  · simp only [bind_eq_ok, generate] at h
    obtain ⟨b, hb, h⟩ := h
    cases h
    rw [if_pos hk, if_pos hk]
    exact ⟨rfl, rfl, fill_length _ _ _ _ _ hb⟩
  · simp only [bind_eq_ok, generate, move_into] at h
    obtain ⟨b1, hb1, b2, hb2, h⟩ := h
    cases h
    have l1 := copy_length _ _ _ _ _ _ hb1
    have l2 := fill_length _ _ _ _ _ hb2
    rw [length_allocate] at l1
    rw [if_neg hk, if_neg hk]
    exact ⟨rfl, rfl, by show b2.length = _; omega⟩

/-- A normal return of the copy constructor: the copy is tight. -/
theorem copy_construct_frame [Inhabited α] (other c : SimpleVector α)
    (h : copy_construct other = .ok c) :
    c.size_ = other.size_ ∧ c.capacity_ = other.size_ ∧ c.vector_.length = other.size_ := by
  unfold copy_construct at h
  simp only [bind_eq_ok] at h
  obtain ⟨b, hb, h⟩ := h
  cases h
  have l1 := copy_length _ _ _ _ _ _ hb
  rw [length_allocate] at l1
  exact ⟨rfl, rfl, l1⟩

/-- The constructor from a size and a value always returns, with every slot
holding the value. -/
theorem with_value_eq [Inhabited α] (n : Nat) (v : α) :
    with_value n v = .ok ⟨List.replicate n v, n, n⟩ := by
  unfold with_value
  rw [fill_eq _ _ _ _ (Nat.zero_le _) (by rw [length_allocate]), ok_bind]
  simp [allocate]
  rfl

/-- The constructor from an initializer list always returns, with the list as
buffer. -/
theorem of_init_eq [Inhabited α] (init : List α) :
    of_init init = .ok ⟨init, init.length, init.length⟩ := by
  unfold of_init
  rw [copy_eq _ _ _ _ _ (Nat.zero_le _) (Nat.le_refl _) (by rw [length_allocate]; omega), ok_bind]
  simp [spliced, allocate]
  rfl

/-! ## Comparison, copies and assignment -/

/-- On two states whose sizes are within their buffers, `operator==` returns, and
it tells whether the live elements are the same. -/
theorem eq_result [DecidableEq α] (a b : SimpleVector α)
    (ha : a.size_ ≤ a.vector_.length) (hb : b.size_ ≤ b.vector_.length) :
    eq a b = .ok (decide (a.live = b.live)) := by
  unfold eq GetSize
  by_cases hs : a.size_ = b.size_
  · rw [if_pos hs]
    unfold equal
    rw [if_neg (by omega), equal_loop_eq _ _ _ _ _ (by omega) (by omega)]
    simp only [live, List.drop_zero, Nat.sub_zero, hs]
  · rw [if_neg hs]
    have hne : a.live ≠ b.live := by
      intro h
      have := congrArg List.length h
      rw [length_live a ha, length_live b hb] at this
      exact hs this
    simp [hne]
    rfl

/-- On a state whose size is within its buffer the copy constructor returns: the
buffer of the copy is the list of the live elements of the source. -/
theorem copy_construct_eq [Inhabited α] (s : SimpleVector α)
    (hbuf : s.size_ ≤ s.vector_.length) :
    copy_construct s = .ok ⟨s.live, s.size_, s.size_⟩ := by
  unfold copy_construct
  rw [copy_eq _ _ _ _ _ (Nat.zero_le _) hbuf (by rw [length_allocate]; omega), ok_bind]
  simp [spliced, allocate, live]
  rfl

/-- A normal return of copy-assignment: nothing happened, or the result is a copy
of the right-hand side. -/
theorem copy_assign_frame [Inhabited α] [DecidableEq α] (s rhs s' : SimpleVector α)
    (h : copy_assign s rhs = .ok s') :
    (ne s rhs = .ok false ∧ s' = s) ∨ (ne s rhs = .ok true ∧ copy_construct rhs = .ok s') := by
  unfold copy_assign at h
  simp only [bind_eq_ok] at h
  obtain ⟨c, hc, h⟩ := h
  cases c with
  | false =>
    left
    simp only [Bool.false_eq_true, if_false] at h
    cases h
    exact ⟨hc, rfl⟩
  | true =>
    right
    simp only [if_true, bind_eq_ok] at h
    obtain ⟨t, ht, h⟩ := h
    cases h
    exact ⟨hc, ht⟩

/-- A normal return of move-assignment: nothing happened, or the destination
holds the state of the source and the source holds the former buffer of the
destination with both counters at 0. -/
theorem move_assign_frame [DecidableEq α] (s rhs s' rhs' : SimpleVector α)
    (h : move_assign s rhs = .ok (s', rhs')) :
    (ne s rhs = .ok false ∧ s' = s ∧ rhs' = rhs) ∨
    (ne s rhs = .ok true ∧ s' = ⟨rhs.vector_, rhs.size_, rhs.capacity_⟩ ∧
      rhs' = ⟨s.vector_, 0, 0⟩) := by
  unfold move_assign at h
  simp only [bind_eq_ok] at h
  obtain ⟨c, hc, h⟩ := h
  cases c with
  | false =>
    left
    simp only [Bool.false_eq_true, if_false] at h
    cases h
    exact ⟨hc, rfl, rfl⟩
  | true =>
    right
    simp only [if_true] at h
    cases h
    exact ⟨hc, rfl, rfl⟩

/-! ## Insert and PushBack -/

/-- For a value held outside the sequence `Insert` does what is asked of it: on a
state whose buffer has exactly `capacity_` slots and whose size is at most the
capacity, `Insert(begin + index, v)` with `index <= size_` returns the position
`index`, in the copy overload and in the move overload alike; afterwards the
size is the old size plus one, the live elements are the old ones before
`index`, then `v`, then the old ones from `index` on, and the capacity is 1 if
it was 0, doubled if the buffer was full and not empty, unchanged otherwise. -/
theorem Insert_of_outside [Inhabited α] (moved : α → α) (s : SimpleVector α) (index : Nat)
    (v : α) (hbuf : s.vector_.length = s.capacity_) (hsize : s.size_ ≤ s.capacity_)
    (hidx : index ≤ s.size_) :
    ∃ s' : SimpleVector α,
      Insert s index (.outside v) = .ok (s', index) ∧
      InsertMove moved s index v = .ok (s', index) ∧
      s'.size_ = s.size_ + 1 ∧
      s'.live = s.live.take index ++ v :: s.live.drop index ∧
      s'.capacity_
        = (if s.capacity_ = 0 then 1
           else if s.size_ = s.capacity_ then 2 * s.capacity_ else s.capacity_) := by
  obtain ⟨buf, h1, h2, _, h4⟩ := Insert_result moved s index v hsize (by omega) hidx
  refine ⟨⟨buf, s.size_ + 1, if s.capacity_ = 0 then 1
    else if s.size_ = s.capacity_ then s.capacity_ * 2 else s.capacity_⟩,
    h1, by rw [h2, h1], rfl, h4, ?_⟩
  show (if s.capacity_ = 0 then 1
    else if s.size_ = s.capacity_ then s.capacity_ * 2 else s.capacity_) = _
  split_ifs <;> omega

/-- C1: the copy overload of `Insert` does not insert the value it is handed when
that value is a live element behind the position. On a buffer of exactly
`capacity_` slots with room left, `v.Insert(begin + index, v[j])` with
`index < j < size_` returns a state whose live elements are the old ones with
`v[j - 1]` put in at `index`, not `v[j]`: the argument is read after
`std::copy_backward` has moved `v[j - 1]` into slot `j`. -/
theorem Insert_alias_behind_index [Inhabited α] (s : SimpleVector α) (index j : Nat)
    (hbuf : s.vector_.length = s.capacity_) (hroom : s.size_ < s.capacity_)
    (hij : index < j) (hj : j < s.size_) :
    ∃ (x y : α) (s' : SimpleVector α),
      SimpleVector.index s j = .ok x ∧ SimpleVector.index s (j - 1) = .ok y ∧
      Insert s index (.slot j) = .ok (s', index) ∧
      s'.size_ = s.size_ + 1 ∧
      s'.live = s.live.take index ++ y :: s.live.drop index ∧
      (x ≠ y → s'.live ≠ s.live.take index ++ x :: s.live.drop index) := by
  have hj1 : j < s.vector_.length := by omega
  have hj2 : j - 1 < s.vector_.length := by omega
  have hx : SimpleVector.index s j = .ok s.vector_[j] := by
    unfold SimpleVector.index
    rw [if_pos hj, readSlot_of_lt _ _ hj1]
  have hy : SimpleVector.index s (j - 1) = .ok s.vector_[j - 1] := by
    unfold SimpleVector.index
    rw [if_pos (by omega), readSlot_of_lt _ _ hj2]
  have hd : deref (if s.size_ = s.capacity_ then s.vector_
      else shifted s.vector_ index (s.size_ - index)) (.slot j) = .ok s.vector_[j - 1] := by
    rw [if_neg (by omega)]
    have g := getElem?_shifted s.vector_ index (s.size_ - index) j (by omega)
    rw [if_neg (by omega), if_pos (by omega), List.getElem?_eq_getElem hj2] at g
    simp only [deref, readSlot, g]
  obtain ⟨buf, h1, _, h3⟩ :=
    Insert_result_ref s index (.slot j) s.vector_[j - 1] (by omega) (by omega) (by omega) hd
  refine ⟨s.vector_[j], s.vector_[j - 1], ⟨buf, s.size_ + 1, if s.capacity_ = 0 then 1
    else if s.size_ = s.capacity_ then s.capacity_ * 2 else s.capacity_⟩,
    hx, hy, h1, rfl, h3, ?_⟩
  intro hne heq
  have h4 : buf.take (s.size_ + 1)
      = s.live.take index ++ s.vector_[j] :: s.live.drop index := heq
  rw [h3] at h4
  have h5 := List.append_cancel_left h4
  rw [List.cons.injEq] at h5
  exact hne h5.1.symm

/-- C1, at the sequence `{1, 2, 3}` with capacity 4 and the call
`v.Insert(v.begin(), v[2])`: the argument holds 3 when the call is made, and the
live elements afterwards are `{2, 1, 2, 3}`; with the value 3 held outside the
sequence they are `{3, 1, 2, 3}`. -/
theorem Insert_alias_behind_index_witness :
    (∃ (x y : Nat) (s' : SimpleVector Nat),
      SimpleVector.index ⟨[1, 2, 3, 0], 3, 4⟩ 2 = .ok x ∧
      SimpleVector.index ⟨[1, 2, 3, 0], 3, 4⟩ (2 - 1) = .ok y ∧
      Insert ⟨[1, 2, 3, 0], 3, 4⟩ 0 (.slot 2) = .ok (s', 0) ∧
      s'.size_ = 3 + 1 ∧
      s'.live = y :: [1, 2, 3] ∧
      (x ≠ y → s'.live ≠ x :: [1, 2, 3])) ∧
    SimpleVector.index (⟨[1, 2, 3, 0], 3, 4⟩ : SimpleVector Nat) 2 = .ok 3 ∧
    Insert (⟨[1, 2, 3, 0], 3, 4⟩ : SimpleVector Nat) 0 (.slot 2)
      = .ok (⟨[2, 1, 2, 3], 4, 4⟩, 0) ∧
    Insert (⟨[1, 2, 3, 0], 3, 4⟩ : SimpleVector Nat) 0 (.outside 3)
      = .ok (⟨[3, 1, 2, 3], 4, 4⟩, 0) :=
  ⟨Insert_alias_behind_index ⟨[1, 2, 3, 0], 3, 4⟩ 0 2 rfl (by decide) (by decide) (by decide),
    rfl, rfl, rfl⟩

theorem PushBack_DoublingInv [Inhabited α] (moved : α → α) (s : SimpleVector α) (v : α)
    (h : DoublingInv s) :
    ∃ s' : SimpleVector α,
      PushBack s v = .ok s' ∧ PushBackMove moved s v = .ok s' ∧
      s'.size_ = s.size_ + 1 ∧ s'.live = s.live ++ [v] ∧ DoublingInv s' := by
  obtain ⟨hb, hs, hp⟩ := h
  obtain ⟨buf, h1, h2, h3, h4⟩ := Insert_result moved s s.size_ v hs hb (Nat.le_refl _)
  have hl : s.live.length = s.size_ := length_live s (by omega)
  refine ⟨⟨buf, s.size_ + 1, if s.capacity_ = 0 then 1
    else if s.size_ = s.capacity_ then s.capacity_ * 2 else s.capacity_⟩,
    ?_, ?_, rfl, ?_, ?_, ?_, ?_⟩
  · simp only [PushBack, h1]
    rfl
  · simp only [PushBackMove, h2, h1]
    rfl
  · show buf.take (s.size_ + 1) = _
    rw [h4, List.take_of_length_le (by omega), List.drop_of_length_le (by omega)]
  · show (if s.capacity_ = 0 then 1
      else if s.size_ = s.capacity_ then s.capacity_ * 2 else s.capacity_) ≤ buf.length
    rw [h3]
    split_ifs <;> omega
  · show s.size_ + 1 ≤ (if s.capacity_ = 0 then 1
      else if s.size_ = s.capacity_ then s.capacity_ * 2 else s.capacity_)
    split_ifs <;> omega
  · right
    refine ⟨Nat.succ_pos _, ?_, ?_⟩
    · show (if s.capacity_ = 0 then 1
        else if s.size_ = s.capacity_ then s.capacity_ * 2 else s.capacity_) < 2 * (s.size_ + 1)
      rcases hp with ⟨_, _⟩ | ⟨_, _, _⟩ <;> split_ifs <;> omega
    · show ∃ e, (if s.capacity_ = 0 then 1
        else if s.size_ = s.capacity_ then s.capacity_ * 2 else s.capacity_) = 2 ^ e
      rcases hp with ⟨_, hc⟩ | ⟨_, _, e, he⟩
      · exact ⟨0, by simp [hc]⟩
      · by_cases hc0 : s.capacity_ = 0
        · exact ⟨0, by simp [hc0]⟩
        · by_cases hf : s.size_ = s.capacity_
          · exact ⟨e + 1, by rw [if_neg hc0, if_pos hf, he, pow_succ]⟩
          · exact ⟨e, by rw [if_neg hc0, if_neg hf, he]⟩

theorem push_all_DoublingInv [Inhabited α] (moved : α → α) (vs : List α) :
    ∀ s : SimpleVector α, DoublingInv s →
    ∃ s' : SimpleVector α,
      push_all s vs = .ok s' ∧ push_all_move moved s vs = .ok s' ∧
      s'.size_ = s.size_ + vs.length ∧ s'.live = s.live ++ vs ∧ DoublingInv s' := by
  induction vs with
  | nil =>
    intro s h
    exact ⟨s, rfl, rfl, rfl, by simp, h⟩
  | cons v vs ih =>
    intro s h
    obtain ⟨s1, p1, p2, p3, p4, p5⟩ := PushBack_DoublingInv moved s v h
    obtain ⟨s2, q1, q2, q3, q4, q5⟩ := ih s1 p5
    refine ⟨s2, ?_, ?_, ?_, ?_, q5⟩
    · simp only [push_all, p1]
      exact q1
    · simp only [push_all_move, p2]
      exact q2
    · rw [q3, p3, List.length_cons]
      omega
    · rw [q4, p4]
      simp

/-- C2: `n >= 1` calls of `PushBack` on a default-constructed sequence (either
overload) give size `n`, the pushed values in push order as live elements, and
as capacity the smallest power of two that is at least `n`. -/
theorem PushBack_doubling [Inhabited α] (moved : α → α) (vs : List α) (hn : 1 ≤ vs.length) :
    ∃ s : SimpleVector α,
      push_all empty vs = .ok s ∧ push_all_move moved empty vs = .ok s ∧
      s.size_ = vs.length ∧ s.live = vs ∧
      ∃ e, s.capacity_ = 2 ^ e ∧ vs.length ≤ 2 ^ e ∧ ∀ m, vs.length ≤ 2 ^ m → 2 ^ e ≤ 2 ^ m := by
  have h0 : DoublingInv (empty : SimpleVector α) := by
    refine ⟨?_, ?_, Or.inl ⟨rfl, rfl⟩⟩ <;> simp [empty]
  obtain ⟨s, h1, h2, h3, h4, hb, hs, hp⟩ := push_all_DoublingInv moved vs empty h0
  have hsz : s.size_ = vs.length := by simpa [empty] using h3
  refine ⟨s, h1, h2, hsz, by simpa [empty, live] using h4, ?_⟩
  rcases hp with ⟨hz, _⟩ | ⟨_, hlt, e, he⟩
  · omega
  · refine ⟨e, he, by omega, ?_⟩
    intro m hm
    by_contra hc
    have hme : m < e := by
      by_contra hge
      exact hc (Nat.pow_le_pow_right (by decide) (by omega))
    have h2m : 2 ^ (m + 1) ≤ 2 ^ e := Nat.pow_le_pow_right (by decide) hme
    rw [pow_succ] at h2m
    omega

/-- C2, for the three pushes 1, 2, 3: the capacity ends at 4. -/
theorem PushBack_doubling_witness :
    ∃ s : SimpleVector Nat,
      push_all empty [1, 2, 3] = .ok s ∧ push_all_move (fun _ => 0) empty [1, 2, 3] = .ok s ∧
      s.size_ = 3 ∧ s.live = [1, 2, 3] ∧
      ∃ e, s.capacity_ = 2 ^ e ∧ 3 ≤ 2 ^ e ∧ ∀ m, 3 ≤ 2 ^ m → 2 ^ e ≤ 2 ^ m :=
  PushBack_doubling (fun _ => 0) [1, 2, 3] (by decide)

/-! ## Erase -/

/-- C3: `Erase(begin + index)` with `index < size_` returns the position `index`,
reduces the size by one, keeps the capacity, and leaves as live elements the old
ones before `index` followed by the old ones behind it. The returned position
holds the element that followed the erased one, or is `end()` when the erased
element was the last; erasing the only element leaves the sequence empty. -/
theorem Erase_contract (moved : α → α) (s : SimpleVector α) (index : Nat)
    (hbuf : s.size_ ≤ s.vector_.length) (hidx : index < s.size_) :
    ∃ s' : SimpleVector α,
      Erase moved s index = .ok (s', index) ∧
      s'.size_ = s.size_ - 1 ∧
      s'.capacity_ = s.capacity_ ∧
      s'.live = s.live.take index ++ s.live.drop (index + 1) ∧
      (index + 1 < s.size_ → s'.live[index]? = s.live[index + 1]?) ∧
      (index + 1 = s.size_ → index = s'.size_) ∧
      (s.size_ = 1 → s'.IsEmpty = true ∧ s'.live = []) := by
  obtain ⟨y, hy⟩ := Erase_result moved s index hbuf hidx
  have hlive := live_closed_up s index y hbuf hidx
  have hl : s.live.length = s.size_ := length_live s hbuf
  refine ⟨_, hy, rfl, rfl, hlive, ?_, ?_, ?_⟩
  · intro _
    show (List.take (s.size_ - 1) _)[index]? = _
    rw [hlive, List.getElem?_append_right (by rw [List.length_take]; omega),
      List.getElem?_drop]
    congr 1
    rw [List.length_take]
    omega
  · intro h
    show index = s.size_ - 1
    omega
  · intro h
    refine ⟨by simp [IsEmpty, h], ?_⟩
    show List.take (s.size_ - 1) _ = []
    rw [h]
    rfl

/-- C3, at the state `[1, 9, 2, 3]`: erasing the element at position 1. -/
theorem Erase_contract_witness :
    ∃ s' : SimpleVector Nat,
      Erase (fun _ => 0) ⟨[1, 9, 2, 3], 4, 4⟩ 1 = .ok (s', 1) ∧
      s'.size_ = 4 - 1 ∧
      s'.capacity_ = 4 ∧
      s'.live = [1, 2, 3] ∧
      (1 + 1 < 4 → s'.live[1]? = some 2) ∧
      (1 + 1 = 4 → 1 = s'.size_) ∧
      ((4 : Nat) = 1 → s'.IsEmpty = true ∧ s'.live = []) :=
  Erase_contract (fun _ => 0) ⟨[1, 9, 2, 3], 4, 4⟩ 1 (by decide) (by decide)

/-! ## Resize -/

/-- What `Resize` does on a state whose size is within its capacity and within
its buffer, when a `new_size` that the capacity counter admits is also within
the buffer: the buffer is reallocated, with `new_size` slots, exactly when
`new_size` exceeds the capacity, and the first `new_size` slots are the old live
elements, cut or continued with default values. -/
theorem Resize_result_fit [Inhabited α] (s : SimpleVector α) (k : Nat)
    (hsize : s.size_ ≤ s.capacity_) (hlen : s.size_ ≤ s.vector_.length)
    (hfit : k ≤ s.capacity_ → k ≤ s.vector_.length) :
    ∃ buf : List α,
      Resize s k
        = .ok ⟨buf, k, if k ≤ s.capacity_ then s.capacity_ else max k (s.capacity_ * 2)⟩ ∧
      buf.length = (if k ≤ s.capacity_ then s.vector_.length else k) ∧
      buf.take k = (s.live ++ List.replicate k default).take k := by
  have hL : (s.vector_.take s.size_).length = s.size_ := by
    rw [List.length_take]
    omega
  by_cases hk : k ≤ s.capacity_
  · have hkl := hfit hk
    by_cases hlt : k < s.size_
    · refine ⟨s.vector_, ?_, ?_, ?_⟩
      · simp only [Resize, if_pos hk, if_pos hlt]
        rfl
      · rw [if_pos hk]
      · rw [live, List.take_append_of_le_length (by omega), List.take_take]
        congr 1
        omega
    · have g := fill_eq s.vector_ s.size_ k (default : α) (by omega) (by omega)
      refine ⟨s.vector_.take s.size_ ++ List.replicate (k - s.size_) default ++ s.vector_.drop k,
        ?_, ?_, ?_⟩
      · simp only [Resize, if_pos hk, if_neg hlt, generate, g]
        rfl
      · rw [if_pos hk]
        simp only [List.length_append, List.length_take, List.length_drop, List.length_replicate]
        omega
      · apply List.ext_getElem?
        intro i
        have e1 : min s.size_ s.vector_.length = s.size_ := by omega
        simp only [live, List.getElem?_take, List.getElem?_append, List.getElem?_replicate,
          List.getElem?_drop, List.length_take, List.length_append, List.length_replicate, e1]
        split_ifs <;> first | rfl | omega
  · have hlen : (allocate k : List α).length = k := by simp [allocate]
    have g1 : move_into s.vector_ 0 s.size_ (allocate k) 0
        = .ok (spliced (allocate k) 0 s.vector_ 0 s.size_) :=
      copy_eq _ _ _ _ _ (by omega) (by omega) (by rw [hlen]; omega)
    have l1 : (spliced (allocate k : List α) 0 s.vector_ 0 s.size_).length = k := by
      rw [length_spliced _ _ _ _ _ (by omega) (by rw [hlen]; omega), hlen]
    have g2 := fill_eq (spliced (allocate k) 0 s.vector_ 0 s.size_) s.size_ k (default : α)
      (by omega) (by omega)
    refine ⟨(spliced (allocate k) 0 s.vector_ 0 s.size_).take s.size_
        ++ List.replicate (k - s.size_) default
        ++ (spliced (allocate k) 0 s.vector_ 0 s.size_).drop k, ?_, ?_, ?_⟩
    · simp only [Resize, if_neg hk, g1, ok_bind, generate, g2]
      rfl
    · rw [if_neg hk]
      simp only [List.length_append, List.length_take, List.length_drop, List.length_replicate,
        l1]
      omega
    · apply List.ext_getElem?
      intro i
      have e1 : min s.size_ k = s.size_ := by omega
      have e2 : min s.size_ s.vector_.length = s.size_ := by omega
      have g3 := getElem?_spliced (allocate k) 0 s.vector_ 0 s.size_ i (by omega)
        (by rw [hlen]; omega)
      simp only [live, List.getElem?_take, List.getElem?_append, List.getElem?_replicate,
        List.getElem?_drop, List.length_take, List.length_append, List.length_replicate, l1, e1,
        e2, g3]
      split_ifs <;> first | rfl | omega | (congr 1; omega)

/-- What `Resize` does on a state whose counters are within the buffer. -/
theorem Resize_result [Inhabited α] (s : SimpleVector α) (k : Nat)
    (hsize : s.size_ ≤ s.capacity_) (hbuf : s.capacity_ ≤ s.vector_.length) :
    ∃ buf : List α,
      Resize s k
        = .ok ⟨buf, k, if k ≤ s.capacity_ then s.capacity_ else max k (s.capacity_ * 2)⟩ ∧
      buf.length = (if k ≤ s.capacity_ then s.vector_.length else k) ∧
      buf.take k = (s.live ++ List.replicate k default).take k :=
  Resize_result_fit s k hsize (by omega) (fun _ => by omega)

/-- C4: on a sequence whose size is within its capacity and its buffer, as it is
after every normal return, `Resize(k)` does what is asked of it exactly when a
`k` within the capacity is also within the buffer. Then the size becomes `k`,
the live elements are the first `k` of the old live elements followed by default
values, whatever the slots behind the old size held (a smaller `k` cuts, a larger
`k` appends `k - size_` default values), and the capacity is unchanged when `k`
does not exceed it and `max(k, 2 * capacity_)` otherwise. With the buffer
shorter than `k <= capacity_`, which is the state an earlier growing `Resize`
leaves, the call writes outside the buffer. -/
theorem Resize_beyond_slots [Inhabited α] (s : SimpleVector α) (k : Nat)
    (hsize : s.size_ ≤ s.capacity_) (hlen : s.size_ ≤ s.vector_.length) :
    (s.vector_.length < k → k ≤ s.capacity_ → Resize s k = .error .out_of_bounds) ∧
    ((k ≤ s.capacity_ → k ≤ s.vector_.length) →
      ∃ s' : SimpleVector α,
        Resize s k = .ok s' ∧
        s'.size_ = k ∧
        s'.live = (s.live ++ List.replicate k default).take k ∧
        (k < s.size_ → s'.live = s.live.take k) ∧
        (s.size_ < k → s'.live = s.live ++ List.replicate (k - s.size_) default) ∧
        s'.capacity_ = (if k ≤ s.capacity_ then s.capacity_ else max k (2 * s.capacity_))) := by
  constructor
  · intro h1 h2
    have hf : generate s.vector_ s.size_ k = .error .out_of_bounds := by
      rw [generate, fill, if_neg (by omega)]
      exact fill_loop_overflow _ _ _ _ hlen (by omega)
    rw [Resize, if_pos h2, if_neg (by omega), hf, error_bind]
  · intro hfit
    obtain ⟨buf, h1, _, h3⟩ := Resize_result_fit s k hsize hlen hfit
    have hl : s.live.length = s.size_ := length_live s hlen
    refine ⟨⟨buf, k, if k ≤ s.capacity_ then s.capacity_ else max k (s.capacity_ * 2)⟩,
      h1, rfl, h3, ?_, ?_, ?_⟩
    · intro hlt
      show buf.take k = _
      rw [h3, List.take_append_of_le_length (by omega)]
    · intro hgt
      show buf.take k = _
      rw [h3, List.take_append_eq_append_take, List.take_of_length_le (by omega), hl,
        List.take_replicate]
      congr 2
      omega
    · show (if k ≤ s.capacity_ then s.capacity_ else max k (s.capacity_ * 2)) = _
      rw [Nat.mul_comm]

/-- C4, at the sequence `{1, 2}` after `Resize(3)`, which has three slots and
capacity 4: `Resize(4)` writes a fourth slot, while `Resize(2)` and `Resize(9)`
return what is asked. -/
theorem Resize_beyond_slots_witness :
    Resize (⟨[1, 2], 2, 2⟩ : SimpleVector Nat) 3 = .ok ⟨[1, 2, 0], 3, 4⟩ ∧
    Resize (⟨[1, 2, 0], 3, 4⟩ : SimpleVector Nat) 4 = .error .out_of_bounds ∧
    Resize (⟨[1, 2, 0], 3, 4⟩ : SimpleVector Nat) 2 = .ok ⟨[1, 2, 0], 2, 4⟩ ∧
    (∃ s' : SimpleVector Nat,
      Resize ⟨[1, 2, 0], 3, 4⟩ 9 = .ok s' ∧
      s'.size_ = 9 ∧
      s'.live = [1, 2, 0, 0, 0, 0, 0, 0, 0] ∧
      (9 < 3 → s'.live = [1, 2, 0]) ∧
      (3 < 9 → s'.live = [1, 2, 0, 0, 0, 0, 0, 0, 0]) ∧
      s'.capacity_ = 9) :=
  ⟨rfl,
    (Resize_beyond_slots ⟨[1, 2, 0], 3, 4⟩ 4 (by decide) (by decide)).1 (by decide) (by decide),
    rfl,
    (Resize_beyond_slots ⟨[1, 2, 0], 3, 4⟩ 9 (by decide) (by decide)).2 (by decide)⟩

/-! ## Reserve -/

/-- C5: at the sequence `{7}`, `Reserve(2)` loses the element: element 0 is 7
before the call and the default value 0 after it, the new buffer having been
adopted with nothing copied into it. -/
theorem Reserve_loses_elements :
    index (⟨[7], 1, 1⟩ : SimpleVector Nat) 0 = .ok 7 ∧
    Reserve (⟨[7], 1, 1⟩ : SimpleVector Nat) 2 = ⟨[0, 0], 1, 2⟩ ∧
    index (Reserve (⟨[7], 1, 1⟩ : SimpleVector Nat) 2) 0 = .ok 0 :=
  ⟨rfl, rfl, rfl⟩

/-- C6: `Reserve(k)` keeps the size and sets the capacity to the larger of the
old capacity and `k`: with `k <= capacity_` the whole state is unchanged, with
`k > capacity_` the capacity becomes `k`. -/
theorem Reserve_counters [Inhabited α] (s : SimpleVector α) (k : Nat) :
    (Reserve s k).size_ = s.size_ ∧
    (Reserve s k).capacity_ = max s.capacity_ k ∧
    (k ≤ s.capacity_ → Reserve s k = s) ∧
    (s.capacity_ < k → (Reserve s k).capacity_ = k) := by
  by_cases hk : k ≤ s.capacity_
  · have e : Reserve s k = s := by simp only [Reserve, if_pos hk]
    rw [e]
    exact ⟨rfl, by omega, fun _ => rfl, fun h => by omega⟩
  · have e : Reserve s k = ⟨allocate k, s.size_, k⟩ := by simp only [Reserve, if_neg hk]
    rw [e]
    exact ⟨rfl, by show k = _; omega, fun h => absurd h hk, fun _ => rfl⟩

/-! ## The two counters -/

/-- On a state whose counters are within its buffer, every operation called
within its precondition returns. -/
theorem returns_within_precondition [Inhabited α] [DecidableEq α] (moved : α → α)
    (s : SimpleVector α) (hsize : s.size_ ≤ s.capacity_)
    (hbuf : s.capacity_ ≤ s.vector_.length) : ReturnsWithinPrecondition moved s := by
  refine ⟨?_, ?_, ?_, ?_, ?_, ?_, ?_⟩
  · intro pos v hpos
    obtain ⟨buf, h1, h2, _, _⟩ := Insert_result moved s pos v hsize hbuf hpos
    exact ⟨_, h1, by rw [h2, h1]⟩
  · intro pos j hpos hj
    have hlen : j < (if s.size_ = s.capacity_ then s.vector_
        else shifted s.vector_ pos (s.size_ - pos)).length := by
      split_ifs with hf
      · omega
      · rw [length_shifted _ _ _ (by omega)]
        omega
    obtain ⟨buf, h1, _, _⟩ := Insert_result_ref s pos (.slot j) _ hsize hbuf hpos
      (deref_slot_of_lt _ j hlen)
    exact ⟨_, h1⟩
  · intro v
    obtain ⟨buf, h1, h2, _, _⟩ := Insert_result moved s s.size_ v hsize hbuf (Nat.le_refl _)
    refine ⟨⟨buf, s.size_ + 1, if s.capacity_ = 0 then 1
      else if s.size_ = s.capacity_ then s.capacity_ * 2 else s.capacity_⟩, ?_, ?_⟩
    · simp only [PushBack, h1]
      rfl
    · simp only [PushBackMove, h2, h1]
      rfl
  · intro pos hpos
    obtain ⟨y, hy⟩ := Erase_result moved s pos (by omega) hpos
    exact ⟨_, hy⟩
  · intro h0
    refine ⟨⟨s.vector_, s.size_ - 1, s.capacity_⟩, ?_⟩
    have he : s.IsEmpty = false := by
      simp only [IsEmpty, beq_eq_false_iff_ne]
      exact h0
    simp only [PopBack, he, Bool.false_eq_true, if_false]
    rfl
  · intro k
    obtain ⟨buf, h1, _, _⟩ := Resize_result s k hsize hbuf
    exact ⟨_, h1⟩
  · intro t ht
    have hne : ne s t = .ok (!decide (s.live = t.live)) := by
      unfold ne
      rw [eq_result s t (by omega) ht]
      rfl
    constructor
    · by_cases hl : s.live = t.live
      · refine ⟨s, ?_⟩
        simp only [copy_assign, hne, hl, decide_True, Bool.not_true, ok_bind]
        rfl
      · refine ⟨⟨t.live, t.size_, t.size_⟩, ?_⟩
        simp only [copy_assign, hne, hl, decide_False, Bool.not_false, ok_bind, if_true,
          copy_construct_eq t ht]
        rfl
    · by_cases hl : s.live = t.live
      · refine ⟨s, t, ?_⟩
        simp only [move_assign, hne, hl, decide_True, Bool.not_true, ok_bind]
        rfl
      · refine ⟨⟨t.vector_, t.size_, t.capacity_⟩, ⟨s.vector_, 0, 0⟩, ?_⟩
        simp only [move_assign, hne, hl, decide_False, Bool.not_false, ok_bind, if_true]
        rfl

/-- C7: `size_ <= capacity_` holds of every sequence a constructor produces
(default, from a size, from a size and a value, from an initializer list, with a
reserve hint, copy, move) and of every state a mutating operation returns when
it held before the call (`Insert` and `PushBack` in both overloads, `Erase`,
`PopBack`, `Clear`, `Resize`, `Reserve`, `swap`, copy-assignment,
move-assignment), of both objects when there are two. The constructors always
return, and so does every operation called within its precondition on a state
whose counters are within its buffer. -/
theorem size_le_capacity_invariant [Inhabited α] [DecidableEq α] (moved : α → α) :
    SizeWithinCapacity (empty : SimpleVector α) ∧
    (∀ n, ∃ s : SimpleVector α, with_size n = .ok s ∧ SizeWithinCapacity s) ∧
    (∀ n (v : α), ∃ s : SimpleVector α, with_value n v = .ok s ∧ SizeWithinCapacity s) ∧
    (∀ init : List α, ∃ s : SimpleVector α, of_init init = .ok s ∧ SizeWithinCapacity s) ∧
    (∀ c, SizeWithinCapacity (with_reserve c : SimpleVector α)) ∧
    (∀ other c : SimpleVector α, copy_construct other = .ok c → SizeWithinCapacity c) ∧
    (∀ other : SimpleVector α, SizeWithinCapacity other →
      SizeWithinCapacity (move_construct other).1 ∧
      SizeWithinCapacity (move_construct other).2) ∧
    (∀ s : SimpleVector α, SizeWithinCapacity s →
      (∀ pos v s' r, Insert s pos v = .ok (s', r) → SizeWithinCapacity s') ∧
      (∀ pos v s' r, InsertMove moved s pos v = .ok (s', r) → SizeWithinCapacity s') ∧
      (∀ v s', PushBack s v = .ok s' → SizeWithinCapacity s') ∧
      (∀ v s', PushBackMove moved s v = .ok s' → SizeWithinCapacity s') ∧
      (∀ pos s' r, Erase moved s pos = .ok (s', r) → SizeWithinCapacity s') ∧
      (∀ s', PopBack s = .ok s' → SizeWithinCapacity s') ∧
      SizeWithinCapacity (Clear s) ∧
      (∀ k s', Resize s k = .ok s' → SizeWithinCapacity s') ∧
      (∀ k, SizeWithinCapacity (Reserve s k)) ∧
      (∀ t : SimpleVector α, SizeWithinCapacity t →
        SizeWithinCapacity (swap s t).1 ∧ SizeWithinCapacity (swap s t).2 ∧
        (∀ s', copy_assign s t = .ok s' → SizeWithinCapacity s') ∧
        (∀ s' t', move_assign s t = .ok (s', t') →
          SizeWithinCapacity s' ∧ SizeWithinCapacity t'))) ∧
    (∀ s : SimpleVector α, SizeWithinCapacity s → s.capacity_ ≤ s.vector_.length →
      ReturnsWithinPrecondition moved s) := by
  have hins : ∀ (s : SimpleVector α), SizeWithinCapacity s → ∀ pos v s' r,
      Insert s pos v = .ok (s', r) → SizeWithinCapacity s' := by
    intro s hs pos v s' r h
    obtain ⟨_, _, h1, h2, _⟩ := Insert_frame s pos v s' r h
    unfold SizeWithinCapacity at hs ⊢
    rw [h1, h2]
    split_ifs <;> omega
  have hinsm : ∀ (s : SimpleVector α), SizeWithinCapacity s → ∀ pos v s' r,
      InsertMove moved s pos v = .ok (s', r) → SizeWithinCapacity s' := by
    intro s hs pos v s' r h
    obtain ⟨_, _, h1, h2, _⟩ := InsertMove_frame moved s pos v s' r h
    unfold SizeWithinCapacity at hs ⊢
    rw [h1, h2]
    split_ifs <;> omega
  refine ⟨Nat.le_refl _, ?_, ?_, ?_, ?_, ?_, ?_, ?_, ?_⟩
  · intro n
    exact ⟨_, with_value_eq n default, Nat.le_refl _⟩
  · intro n v
    exact ⟨_, with_value_eq n v, Nat.le_refl _⟩
  · intro init
    exact ⟨_, of_init_eq init, Nat.le_refl _⟩
  · intro c
    exact Nat.zero_le _
  · intro other c h
    obtain ⟨h1, h2, _⟩ := copy_construct_frame other c h
    unfold SizeWithinCapacity
    omega
  · intro other h
    exact ⟨h, Nat.le_refl _⟩
  · intro s hs
    refine ⟨hins s hs, hinsm s hs, ?_, ?_, ?_, ?_, ?_, ?_, ?_, ?_⟩
    · intro v s' h
      unfold PushBack at h
      rw [bind_eq_ok] at h
      obtain ⟨⟨s1, r⟩, h1, h2⟩ := h
      cases h2
      exact hins s hs _ _ _ _ h1
    · intro v s' h
      unfold PushBackMove at h
      rw [bind_eq_ok] at h
      obtain ⟨⟨s1, r⟩, h1, h2⟩ := h
      cases h2
      exact hinsm s hs _ _ _ _ h1
    · intro pos s' r h
      obtain ⟨_, _, h1, h2, _⟩ := Erase_frame moved s pos s' r h
      unfold SizeWithinCapacity at hs ⊢
      omega
    · intro s' h
      obtain ⟨_, h1⟩ := PopBack_frame s s' h
      subst h1
      unfold SizeWithinCapacity at hs ⊢
      show s.size_ - 1 ≤ s.capacity_
      omega
    · exact Nat.zero_le _
    · intro k s' h
      obtain ⟨h1, h2, _⟩ := Resize_frame s k s' h
      unfold SizeWithinCapacity
      rw [h1, h2]
      split_ifs <;> omega
    · intro k
      unfold SizeWithinCapacity Reserve at *
      split_ifs
      · exact hs
      · show s.size_ ≤ k
        omega
    · intro t ht
      refine ⟨ht, hs, ?_, ?_⟩
      · intro s' h
        rcases copy_assign_frame s t s' h with ⟨_, h1⟩ | ⟨_, h1⟩
        · rw [h1]
          exact hs
        · obtain ⟨h2, h3, _⟩ := copy_construct_frame t s' h1
          unfold SizeWithinCapacity
          omega
      · intro s' t' h
        rcases move_assign_frame s t s' t' h with ⟨_, h1, h2⟩ | ⟨_, h1, h2⟩
        · rw [h1, h2]
          exact ⟨hs, ht⟩
        · rw [h1, h2]
          exact ⟨ht, Nat.le_refl _⟩
  · intro s hs hb
    exact returns_within_precondition moved s hs hb

/-- C7, on the run `{1, 2, 3}` with capacity 4, `Insert(begin + 1, 9)`: the call
returns and the state it returns has its size within its capacity. -/
theorem size_le_capacity_invariant_witness :
    Insert (⟨[1, 2, 3, 0], 3, 4⟩ : SimpleVector Nat) 1 (.outside 9)
      = .ok (⟨[1, 9, 2, 3], 4, 4⟩, 1) ∧
    SizeWithinCapacity (⟨[1, 9, 2, 3], 4, 4⟩ : SimpleVector Nat) :=
  ⟨rfl, ((size_le_capacity_invariant (fun _ => 0)).2.2.2.2.2.2.2.1
    (⟨[1, 2, 3, 0], 3, 4⟩ : SimpleVector Nat) (by decide)).1 1 (.outside 9) _ 1 rfl⟩

/-- C8, as stated, fails at the move-assignment `{1} = std::move({2, 3})`: both
operands have exactly `capacity_` slots before the call, and afterwards the
source has capacity 0 while it owns the one-slot buffer of the destination. -/
theorem capacity_counter_counterexample :
    ExactCapacity (⟨[1], 1, 1⟩ : SimpleVector Nat) ∧
    ExactCapacity (⟨[2, 3], 2, 2⟩ : SimpleVector Nat) ∧
    move_assign (⟨[1], 1, 1⟩ : SimpleVector Nat) ⟨[2, 3], 2, 2⟩
      = .ok (⟨[2, 3], 2, 2⟩, ⟨[1], 0, 0⟩) ∧
    ¬ ExactCapacity (⟨[1], 0, 0⟩ : SimpleVector Nat) :=
  ⟨rfl, rfl, rfl, by decide⟩

/-- C8, amended: the capacity counter is the number of slots of the owned buffer
after every constructor, and this is preserved by `Insert` and `PushBack` in both
overloads, `Erase`, `PopBack`, `Clear`, `Reserve`, `swap`, copy-assignment, by a
`Resize(k)` with `k <= capacity_` or `k >= 2 * capacity_`, and for the
destination of a move-assignment; the source of a move-assignment that takes
place is left with capacity 0 and the former buffer of the destination, so that
its capacity counter is at most its number of slots. Every operation called
within its precondition on a state with exact capacity and its size within it
returns. -/
theorem capacity_counter_amended [Inhabited α] [DecidableEq α] (moved : α → α) :
    ExactCapacity (empty : SimpleVector α) ∧
    (∀ n, ∃ s : SimpleVector α, with_size n = .ok s ∧ ExactCapacity s) ∧
    (∀ n (v : α), ∃ s : SimpleVector α, with_value n v = .ok s ∧ ExactCapacity s) ∧
    (∀ init : List α, ∃ s : SimpleVector α, of_init init = .ok s ∧ ExactCapacity s) ∧
    (∀ c, ExactCapacity (with_reserve c : SimpleVector α)) ∧
    (∀ other c : SimpleVector α, copy_construct other = .ok c → ExactCapacity c) ∧
    (∀ other : SimpleVector α, ExactCapacity other →
      ExactCapacity (move_construct other).1 ∧ ExactCapacity (move_construct other).2) ∧
    (∀ s : SimpleVector α, ExactCapacity s →
      (∀ pos v s' r, Insert s pos v = .ok (s', r) → ExactCapacity s') ∧
      (∀ pos v s' r, InsertMove moved s pos v = .ok (s', r) → ExactCapacity s') ∧
      (∀ v s', PushBack s v = .ok s' → ExactCapacity s') ∧
      (∀ v s', PushBackMove moved s v = .ok s' → ExactCapacity s') ∧
      (∀ pos s' r, Erase moved s pos = .ok (s', r) → ExactCapacity s') ∧
      (∀ s', PopBack s = .ok s' → ExactCapacity s') ∧
      ExactCapacity (Clear s) ∧
      (∀ k s', (k ≤ s.capacity_ ∨ 2 * s.capacity_ ≤ k) → Resize s k = .ok s' →
        ExactCapacity s') ∧
      (∀ k, ExactCapacity (Reserve s k)) ∧
      (∀ t : SimpleVector α, ExactCapacity t →
        ExactCapacity (swap s t).1 ∧ ExactCapacity (swap s t).2 ∧
        (∀ s', copy_assign s t = .ok s' → ExactCapacity s') ∧
        (∀ s' t', move_assign s t = .ok (s', t') →
          ExactCapacity s' ∧ t'.capacity_ ≤ t'.vector_.length ∧
          (ne s t = .ok true → t'.capacity_ = 0 ∧ t'.vector_ = s.vector_)))) ∧
    (∀ s : SimpleVector α, ExactCapacity s → SizeWithinCapacity s →
      ReturnsWithinPrecondition moved s) := by
  have hins : ∀ (s : SimpleVector α), ExactCapacity s → ∀ pos v s' r,
      Insert s pos v = .ok (s', r) → ExactCapacity s' := by
    intro s hs pos v s' r h
    obtain ⟨_, _, _, h2, h3⟩ := Insert_frame s pos v s' r h
    unfold ExactCapacity at hs ⊢
    rw [h2, h3]
    split_ifs <;> omega
  have hinsm : ∀ (s : SimpleVector α), ExactCapacity s → ∀ pos v s' r,
      InsertMove moved s pos v = .ok (s', r) → ExactCapacity s' := by
    intro s hs pos v s' r h
    obtain ⟨_, _, _, h2, h3⟩ := InsertMove_frame moved s pos v s' r h
    unfold ExactCapacity at hs ⊢
    rw [h2, h3]
    split_ifs <;> omega
  refine ⟨rfl, ?_, ?_, ?_, ?_, ?_, ?_, ?_, ?_⟩
  · intro n
    exact ⟨_, with_value_eq n default, by simp [ExactCapacity]⟩
  · intro n v
    exact ⟨_, with_value_eq n v, by simp [ExactCapacity]⟩
  · intro init
    exact ⟨_, of_init_eq init, rfl⟩
  · intro c
    exact length_allocate c
  · intro other c h
    obtain ⟨_, h2, h3⟩ := copy_construct_frame other c h
    unfold ExactCapacity
    omega
  · intro other h
    exact ⟨h, rfl⟩
  · intro s hs
    refine ⟨hins s hs, hinsm s hs, ?_, ?_, ?_, ?_, ?_, ?_, ?_, ?_⟩
    · intro v s' h
      unfold PushBack at h
      rw [bind_eq_ok] at h
      obtain ⟨⟨s1, r⟩, h1, h2⟩ := h
      cases h2
      exact hins s hs _ _ _ _ h1
    · intro v s' h
      unfold PushBackMove at h
      rw [bind_eq_ok] at h
      obtain ⟨⟨s1, r⟩, h1, h2⟩ := h
      cases h2
      exact hinsm s hs _ _ _ _ h1
    · intro pos s' r h
      obtain ⟨_, _, _, h2, h3⟩ := Erase_frame moved s pos s' r h
      unfold ExactCapacity at hs ⊢
      omega
    · intro s' h
      obtain ⟨_, h1⟩ := PopBack_frame s s' h
      subst h1
      exact hs
    · exact hs
    · intro k s' hk h
      obtain ⟨_, h2, h3⟩ := Resize_frame s k s' h
      unfold ExactCapacity at hs ⊢
      rw [h2, h3]
      split_ifs <;> omega
    · intro k
      unfold ExactCapacity Reserve at *
      split_ifs
      · exact hs
      · exact length_allocate k
    · intro t ht
      refine ⟨ht, hs, ?_, ?_⟩
      · intro s' h
        rcases copy_assign_frame s t s' h with ⟨_, h1⟩ | ⟨_, h1⟩
        · rw [h1]
          exact hs
        · obtain ⟨_, h3, h4⟩ := copy_construct_frame t s' h1
          unfold ExactCapacity
          omega
      · intro s' t' h
        rcases move_assign_frame s t s' t' h with ⟨hn, h1, h2⟩ | ⟨_, h1, h2⟩
        · rw [h1, h2]
          refine ⟨hs, Nat.le_of_eq ht.symm, ?_⟩
          intro hc
          rw [hn] at hc
          cases hc
        · rw [h1, h2]
          exact ⟨ht, Nat.zero_le _, fun _ => ⟨rfl, rfl⟩⟩
  · intro s he hs
    exact returns_within_precondition moved s hs (Nat.le_of_eq he.symm)

/-- C8 amended, on `{1, 2}` with `Resize(4)`, a request of twice the capacity:
the call returns and the capacity counter of the result is its number of
slots. -/
theorem capacity_counter_amended_witness :
    Resize (⟨[1, 2], 2, 2⟩ : SimpleVector Nat) 4 = .ok ⟨[1, 2, 0, 0], 4, 4⟩ ∧
    ExactCapacity (⟨[1, 2, 0, 0], 4, 4⟩ : SimpleVector Nat) :=
  ⟨rfl, ((capacity_counter_amended (fun _ => 0)).2.2.2.2.2.2.2.1
    (⟨[1, 2], 2, 2⟩ : SimpleVector Nat) rfl).2.2.2.2.2.2.2.1 4 _ (Or.inr (by decide)) rfl⟩

/-! ## Checked access -/

/-- C9: `At(index)` fails with the out-of-range error exactly when
`index >= size_`; with `index < size_` it returns element `index` of the live
elements, the one `operator[]` returns. `At` yields a value only, its body
writes no member, so the container is the same after the call in both cases. -/
theorem At_contract (s : SimpleVector α) (i : Nat) (hbuf : s.size_ ≤ s.vector_.length) :
    (At s i = .error .out_of_range ↔ s.size_ ≤ i) ∧
    (s.size_ ≤ i → At s i = .error .out_of_range) ∧
    (i < s.size_ → ∃ x, s.live[i]? = some x ∧ At s i = .ok x ∧ index s i = .ok x) := by
  have hge : s.size_ ≤ i → At s i = .error .out_of_range := by
    intro h
    unfold At
    rw [if_pos h]
  have hlt : i < s.size_ → ∃ x, s.live[i]? = some x ∧ At s i = .ok x ∧ index s i = .ok x := by
    intro h
    have hi : i < s.vector_.length := by omega
    refine ⟨s.vector_[i], ?_, ?_, ?_⟩
    · rw [live, List.getElem?_take, if_pos h, List.getElem?_eq_getElem hi]
    · unfold At
      rw [if_neg (by omega), readSlot_of_lt _ _ hi]
    · unfold index
      rw [if_pos h, readSlot_of_lt _ _ hi]
  refine ⟨⟨?_, hge⟩, hge, hlt⟩
  intro h
  by_contra hc
  obtain ⟨x, _, hx, _⟩ := hlt (by omega)
  rw [hx] at h
  cases h

/-- C9, on a sequence of size 3 with a fourth, dead slot: index 3 is refused,
index 2 is served. -/
theorem At_contract_witness :
    (At (⟨[5, 6, 7, 8], 3, 4⟩ : SimpleVector Nat) 3 = .error .out_of_range ↔ 3 ≤ 3) ∧
    (At (⟨[5, 6, 7, 8], 3, 4⟩ : SimpleVector Nat) 2 = .ok 7) :=
  ⟨(At_contract ⟨[5, 6, 7, 8], 3, 4⟩ 3 (by decide)).1, rfl⟩

/-! ## Copy construction -/

/-- C10: the copy constructor, on a source of any capacity, produces a sequence
that compares equal to the source, has the same live elements in the same order,
and is tight: its size, its capacity and its number of slots are the size of the
source. The source is an argument that is only read, so it is the same after the
call. -/
theorem copy_construct_contract [Inhabited α] [DecidableEq α] (s : SimpleVector α)
    (hbuf : s.size_ ≤ s.vector_.length) :
    ∃ c : SimpleVector α,
      copy_construct s = .ok c ∧
      eq c s = .ok true ∧ ne c s = .ok false ∧
      c.live = s.live ∧
      c.size_ = s.size_ ∧ c.capacity_ = s.size_ ∧ c.vector_.length = s.size_ := by
  have hl : s.live.length = s.size_ := length_live s hbuf
  have hlive : (⟨s.live, s.size_, s.size_⟩ : SimpleVector α).live = s.live := by
    show s.live.take s.size_ = s.live
    rw [List.take_of_length_le (by omega)]
  have heq : eq (⟨s.live, s.size_, s.size_⟩ : SimpleVector α) s = .ok true := by
    rw [eq_result _ s (by show s.size_ ≤ s.live.length; omega) hbuf, hlive]
    simp
  refine ⟨⟨s.live, s.size_, s.size_⟩, copy_construct_eq s hbuf, heq, ?_, hlive, rfl, rfl, hl⟩
  unfold ne
  rw [heq]
  rfl

/-- C10, on the source `{1, 2}` with capacity 4: the copy has capacity 2. -/
theorem copy_construct_contract_witness :
    ∃ c : SimpleVector Nat,
      copy_construct ⟨[1, 2, 8, 9], 2, 4⟩ = .ok c ∧
      eq c ⟨[1, 2, 8, 9], 2, 4⟩ = .ok true ∧ ne c ⟨[1, 2, 8, 9], 2, 4⟩ = .ok false ∧
      c.live = [1, 2] ∧
      c.size_ = 2 ∧ c.capacity_ = 2 ∧ c.vector_.length = 2 :=
  copy_construct_contract ⟨[1, 2, 8, 9], 2, 4⟩ (by decide)

/-! ## Ordering -/

/-- The loop of `std::lexicographical_compare` computes `lex_lt` of the two
ranges. -/
theorem lexicographical_compare_loop_eq [LT α] [DecidableRel (α := α) (· < ·)]
    (a b : List α) : ∀ (n1 n2 first1 first2 : Nat),
    first1 + n1 ≤ a.length → first2 + n2 ≤ b.length →
    lexicographical_compare_loop a b n1 n2 first1 first2
      = .ok (lex_lt ((a.drop first1).take n1) ((b.drop first2).take n2))
  | 0, 0, _, _, _, _ => by simp [lexicographical_compare_loop, lex_lt]
  | 0, n2 + 1, _, first2, _, h2 => by
    have hb : first2 < b.length := by omega
    rw [List.drop_eq_getElem_cons hb]
    simp [lexicographical_compare_loop, lex_lt]
  | n1 + 1, 0, first1, _, h1, _ => by
    have ha : first1 < a.length := by omega
    rw [List.drop_eq_getElem_cons ha]
    simp [lexicographical_compare_loop, lex_lt]
  | n1 + 1, n2 + 1, first1, first2, h1, h2 => by
    have ha : first1 < a.length := by omega
    have hb : first2 < b.length := by omega
    simp only [lexicographical_compare_loop, readSlot_of_lt a _ ha, readSlot_of_lt b _ hb]
    rw [ok_bind, ok_bind, List.drop_eq_getElem_cons ha, List.drop_eq_getElem_cons hb,
      List.take_succ_cons, List.take_succ_cons]
    simp only [lex_lt]
    by_cases hxy : a[first1] < b[first2]
    · rw [if_pos hxy, if_pos hxy]
    · rw [if_neg hxy, if_neg hxy]
      by_cases hyx : b[first2] < a[first1]
      · rw [if_pos hyx, if_pos hyx]
      · rw [if_neg hyx, if_neg hyx]
        exact lexicographical_compare_loop_eq a b n1 n2 _ _ (by omega) (by omega)

/-- On two states whose sizes are within their buffers, `operator<` returns, and
it is `lex_lt` of the live elements. -/
theorem lt_result [LT α] [DecidableRel (α := α) (· < ·)] (a b : SimpleVector α)
    (ha : a.size_ ≤ a.vector_.length) (hb : b.size_ ≤ b.vector_.length) :
    lt a b = .ok (lex_lt a.live b.live) := by
  unfold lt lexicographical_compare
  rw [if_neg (by omega), lexicographical_compare_loop_eq _ _ _ _ _ _ (by omega) (by omega)]
  simp only [live, List.drop_zero, Nat.sub_zero]

theorem LexLess_nil_cons [LT α] (y : α) (ys : List α) : LexLess [] (y :: ys) := by
  left
  simp

theorem not_LexLess_nil [LT α] (xs : List α) : ¬ LexLess xs [] := by
  rintro (⟨h, _⟩ | ⟨i, x, y, _, h, _⟩)
  · simp at h
  · simp at h

theorem LexLess_cons_cons [LinearOrder α] (x y : α) (xs ys : List α) :
    LexLess (x :: xs) (y :: ys) ↔ x < y ∨ (x = y ∧ LexLess xs ys) := by
  constructor
  · rintro (⟨hl, ht⟩ | ⟨i, u, v, hu, hv, ht, huv⟩)
    · right
      simp only [List.length_cons, List.take_succ_cons, List.cons.injEq] at hl ht
      exact ⟨ht.1.symm, Or.inl ⟨by omega, ht.2⟩⟩
    · cases i with
      | zero =>
        left
        simp only [List.getElem?_cons_zero, Option.some.injEq] at hu hv
        rw [hu, hv]
        exact huv
      | succ i =>
        right
        simp only [List.getElem?_cons_succ] at hu hv
        simp only [List.take_succ_cons, List.cons.injEq] at ht
        exact ⟨ht.1, Or.inr ⟨i, u, v, hu, hv, ht.2, huv⟩⟩
  · rintro (h | ⟨rfl, (⟨hl, ht⟩ | ⟨i, u, v, hu, hv, ht, huv⟩)⟩)
    · exact Or.inr ⟨0, x, y, by simp, by simp, by simp, h⟩
    · left
      simp only [List.length_cons, List.take_succ_cons, List.cons.injEq]
      exact ⟨by omega, trivial, ht⟩
    · right
      refine ⟨i + 1, u, v, by simpa using hu, by simpa using hv, ?_, huv⟩
      simp only [List.take_succ_cons, ht]

/-- The element-by-element comparison is the lexicographic order of the spec. -/
theorem lex_lt_iff [LinearOrder α] : ∀ (xs ys : List α),
    lex_lt xs ys = true ↔ LexLess xs ys
  | [], [] => by
    simp only [lex_lt, Bool.false_eq_true, false_iff]
    exact not_LexLess_nil []
  | [], y :: ys => by
    simp only [lex_lt, true_iff]
    exact LexLess_nil_cons y ys
  | x :: xs, [] => by
    simp only [lex_lt, Bool.false_eq_true, false_iff]
    exact not_LexLess_nil _
  | x :: xs, y :: ys => by
    rw [LexLess_cons_cons, lex_lt]
    by_cases hxy : x < y
    · simp [hxy]
    · by_cases hyx : y < x
      · have hne : x ≠ y := (ne_of_lt hyx).symm
        simp [hxy, hyx, hne]
      · have he : x = y := le_antisymm (not_lt.mp hyx) (not_lt.mp hxy)
        subst he
        simpa [lt_irrefl] using lex_lt_iff xs ys

/-- Of two lists over a linear order, exactly one of three holds: the first is
smaller, they are equal, the second is smaller. -/
theorem lex_lt_trichotomy [LinearOrder α] : ∀ (xs ys : List α),
    (lex_lt xs ys = true ∧ xs ≠ ys ∧ lex_lt ys xs = false) ∨
    (lex_lt xs ys = false ∧ xs = ys ∧ lex_lt ys xs = false) ∨
    (lex_lt xs ys = false ∧ xs ≠ ys ∧ lex_lt ys xs = true)
  | [], [] => by simp [lex_lt]
  | [], y :: ys => by simp [lex_lt]
  | x :: xs, [] => by simp [lex_lt]
  | x :: xs, y :: ys => by
    simp only [lex_lt, List.cons.injEq, ne_eq]
    rcases lt_trichotomy x y with h | h | h
    · have h' : ¬ y < x := not_lt.mpr (le_of_lt h)
      have hne : x ≠ y := ne_of_lt h
      simp [h, h', hne]
    · subst h
      have := lex_lt_trichotomy xs ys
      simpa [lt_irrefl] using this
    · have h' : ¬ x < y := not_lt.mpr (le_of_lt h)
      have hne : x ≠ y := (ne_of_lt h).symm
      simp [h, h', hne]

/-! ## Assignment -/

/-- On two states whose sizes are within their buffers, `operator!=` returns and
tells whether the live elements differ. -/
theorem ne_result [DecidableEq α] (a b : SimpleVector α)
    (ha : a.size_ ≤ a.vector_.length) (hb : b.size_ ≤ b.vector_.length) :
    ne a b = .ok (!decide (a.live = b.live)) := by
  unfold ne
  rw [eq_result a b ha hb]
  rfl

/-- C11, as stated, fails at the destination `{1, 2}` with capacity 4 and the
source `{1, 2}` with capacity 2, two different objects: a copy construction from
the source has capacity 2, but the assignment leaves the destination as it was,
with capacity 4. -/
theorem copy_assign_counterexample :
    copy_construct (⟨[1, 2], 2, 2⟩ : SimpleVector Nat) = .ok ⟨[1, 2], 2, 2⟩ ∧
    copy_assign (⟨[1, 2, 0, 0], 2, 4⟩ : SimpleVector Nat) ⟨[1, 2], 2, 2⟩
      = .ok ⟨[1, 2, 0, 0], 2, 4⟩ ∧
    (⟨[1, 2, 0, 0], 2, 4⟩ : SimpleVector Nat).capacity_
      ≠ (⟨[1, 2], 2, 2⟩ : SimpleVector Nat).size_ :=
  ⟨rfl, rfl, by decide⟩

/-- C11, amended: copy-assignment `dst = src` returns and leaves `dst` with the
live elements and the size of `src`. When the two compare unequal (`operator!=`),
`dst` is exactly the state a copy construction from `src` produces, so its
capacity is the size of `src`; when they compare equal, also as two objects, the
assignment does nothing and `dst` keeps its buffer and its capacity. `src` is an
argument that is only read. -/
theorem copy_assign_amended [Inhabited α] [DecidableEq α] (dst src : SimpleVector α)
    (hd : dst.size_ ≤ dst.vector_.length) (hs : src.size_ ≤ src.vector_.length) :
    ∃ dst' : SimpleVector α,
      copy_assign dst src = .ok dst' ∧
      dst'.live = src.live ∧ dst'.size_ = src.size_ ∧
      (ne dst src = .ok true →
        copy_construct src = .ok dst' ∧ dst'.capacity_ = src.size_) ∧
      (ne dst src = .ok false → dst' = dst) ∧
      (ne dst src = .ok true ∨ ne dst src = .ok false) := by
  have hne := ne_result dst src hd hs
  have hls : src.live.length = src.size_ := length_live src hs
  have hld : dst.live.length = dst.size_ := length_live dst hd
  by_cases hl : dst.live = src.live
  · have hn : ne dst src = .ok false := by
      rw [hne]
      simp [hl]
    refine ⟨dst, ?_, hl, ?_, ?_, fun _ => rfl, Or.inr hn⟩
    · simp only [copy_assign, hn, ok_bind]
      rfl
    · rw [← hld, ← hls, hl]
    · intro h
      rw [hn] at h
      cases h
  · have hn : ne dst src = .ok true := by
      rw [hne]
      simp [hl]
    have hc := copy_construct_eq src hs
    refine ⟨⟨src.live, src.size_, src.size_⟩, ?_, ?_, rfl, fun _ => ⟨hc, rfl⟩, ?_, Or.inl hn⟩
    · simp only [copy_assign, hn, ok_bind, if_true, hc]
      rfl
    · show src.live.take src.size_ = src.live
      rw [List.take_of_length_le (by omega)]
    · intro h
      rw [hn] at h
      cases h

/-- C11 amended, at the destination `{7}` and the source `{1, 2}` with capacity
4: the destination becomes the tight copy `{1, 2}` with capacity 2. -/
theorem copy_assign_amended_witness :
    ∃ dst' : SimpleVector Nat,
      copy_assign ⟨[7], 1, 1⟩ ⟨[1, 2, 8, 9], 2, 4⟩ = .ok dst' ∧
      dst'.live = [1, 2] ∧ dst'.size_ = 2 ∧
      (ne (⟨[7], 1, 1⟩ : SimpleVector Nat) ⟨[1, 2, 8, 9], 2, 4⟩ = .ok true →
        copy_construct ⟨[1, 2, 8, 9], 2, 4⟩ = .ok dst' ∧ dst'.capacity_ = 2) ∧
      (ne (⟨[7], 1, 1⟩ : SimpleVector Nat) ⟨[1, 2, 8, 9], 2, 4⟩ = .ok false →
        dst' = ⟨[7], 1, 1⟩) ∧
      (ne (⟨[7], 1, 1⟩ : SimpleVector Nat) ⟨[1, 2, 8, 9], 2, 4⟩ = .ok true ∨
        ne (⟨[7], 1, 1⟩ : SimpleVector Nat) ⟨[1, 2, 8, 9], 2, 4⟩ = .ok false) :=
  copy_assign_amended ⟨[7], 1, 1⟩ ⟨[1, 2, 8, 9], 2, 4⟩ (by decide) (by decide)

/-- C12, as stated, fails at the destination `{1, 2}` with capacity 4 and the
source `{1, 2}` with capacity 2, two different objects: the move-assignment does
nothing, the source keeps its two elements and its capacity, and the destination
keeps capacity 4 instead of taking the capacity 2 of the source. -/
theorem move_assign_counterexample :
    move_assign (⟨[1, 2, 0, 0], 2, 4⟩ : SimpleVector Nat) ⟨[1, 2], 2, 2⟩
      = .ok (⟨[1, 2, 0, 0], 2, 4⟩, ⟨[1, 2], 2, 2⟩) ∧
    (⟨[1, 2], 2, 2⟩ : SimpleVector Nat).size_ ≠ 0 ∧
    (⟨[1, 2], 2, 2⟩ : SimpleVector Nat).capacity_ ≠ 0 ∧
    (⟨[1, 2, 0, 0], 2, 4⟩ : SimpleVector Nat).capacity_
      ≠ (⟨[1, 2], 2, 2⟩ : SimpleVector Nat).capacity_ :=
  ⟨rfl, by decide, by decide, by decide⟩

/-- C12, amended: move-assignment `dst = move(src)` returns and leaves `dst` with
the prior live elements and size of `src`. When the two compare unequal
(`operator!=`), `dst` takes the buffer, the size and the capacity of `src`, and
`src` is left with size 0 and capacity 0 (holding the former buffer of `dst`);
when they compare equal, also as two objects, the assignment does nothing to
either of them. -/
theorem move_assign_amended [DecidableEq α] (dst src : SimpleVector α)
    (hd : dst.size_ ≤ dst.vector_.length) (hs : src.size_ ≤ src.vector_.length) :
    ∃ dst' src' : SimpleVector α,
      move_assign dst src = .ok (dst', src') ∧
      dst'.live = src.live ∧ dst'.size_ = src.size_ ∧
      (ne dst src = .ok true →
        dst' = src ∧ src'.size_ = 0 ∧ src'.capacity_ = 0 ∧ src'.vector_ = dst.vector_) ∧
      (ne dst src = .ok false → dst' = dst ∧ src' = src) ∧
      (ne dst src = .ok true ∨ ne dst src = .ok false) := by
  have hne := ne_result dst src hd hs
  have hls : src.live.length = src.size_ := length_live src hs
  have hld : dst.live.length = dst.size_ := length_live dst hd
  by_cases hl : dst.live = src.live
  · have hn : ne dst src = .ok false := by
      rw [hne]
      simp [hl]
    refine ⟨dst, src, ?_, hl, ?_, ?_, fun _ => ⟨rfl, rfl⟩, Or.inr hn⟩
    · simp only [move_assign, hn, ok_bind]
      rfl
    · rw [← hld, ← hls, hl]
    · intro h
      rw [hn] at h
      cases h
  · have hn : ne dst src = .ok true := by
      rw [hne]
      simp [hl]
    refine ⟨src, ⟨dst.vector_, 0, 0⟩, ?_, rfl, rfl, fun _ => ⟨rfl, rfl, rfl, rfl⟩, ?_, Or.inl hn⟩
    · simp only [move_assign, hn, ok_bind, if_true]
      rfl
    · intro h
      rw [hn] at h
      cases h

/-- C12 amended, at the destination `{7}` and the source `{1, 2}` with capacity
4: the destination takes over the source, the source is left empty. -/
theorem move_assign_amended_witness :
    ∃ dst' src' : SimpleVector Nat,
      move_assign ⟨[7], 1, 1⟩ ⟨[1, 2, 8, 9], 2, 4⟩ = .ok (dst', src') ∧
      dst'.live = [1, 2] ∧ dst'.size_ = 2 ∧
      (ne (⟨[7], 1, 1⟩ : SimpleVector Nat) ⟨[1, 2, 8, 9], 2, 4⟩ = .ok true →
        dst' = ⟨[1, 2, 8, 9], 2, 4⟩ ∧ src'.size_ = 0 ∧ src'.capacity_ = 0 ∧
        src'.vector_ = [7]) ∧
      (ne (⟨[7], 1, 1⟩ : SimpleVector Nat) ⟨[1, 2, 8, 9], 2, 4⟩ = .ok false →
        dst' = ⟨[7], 1, 1⟩ ∧ src' = ⟨[1, 2, 8, 9], 2, 4⟩) ∧
      (ne (⟨[7], 1, 1⟩ : SimpleVector Nat) ⟨[1, 2, 8, 9], 2, 4⟩ = .ok true ∨
        ne (⟨[7], 1, 1⟩ : SimpleVector Nat) ⟨[1, 2, 8, 9], 2, 4⟩ = .ok false) :=
  move_assign_amended ⟨[7], 1, 1⟩ ⟨[1, 2, 8, 9], 2, 4⟩ (by decide) (by decide)

/-! ## Equality and ordering -/

theorem index_of_lt (s : SimpleVector α) (i : Nat) (h : i < s.size_)
    (hbuf : s.size_ ≤ s.vector_.length) :
    ∃ x, s.vector_[i]? = some x ∧ index s i = .ok x := by
  have hi : i < s.vector_.length := by omega
  refine ⟨s.vector_[i], List.getElem?_eq_getElem hi, ?_⟩
  unfold index
  rw [if_pos h, readSlot_of_lt _ _ hi]

/-- Two states have the same live elements exactly when they have the same size
and `operator[]` gives the same element at every index below it. -/
theorem live_eq_iff (a b : SimpleVector α)
    (ha : a.size_ ≤ a.vector_.length) (hb : b.size_ ≤ b.vector_.length) :
    a.live = b.live ↔ a.size_ = b.size_ ∧ ∀ i, i < a.size_ → index a i = index b i := by
  constructor
  · intro h
    have hs : a.size_ = b.size_ := by
      have := congrArg List.length h
      rwa [length_live a ha, length_live b hb] at this
    refine ⟨hs, ?_⟩
    intro i hi
    obtain ⟨x, hx, hax⟩ := index_of_lt a i hi ha
    obtain ⟨y, hy, hby⟩ := index_of_lt b i (by omega) hb
    have h1 : a.live[i]? = some x := by
      rw [live, List.getElem?_take, if_pos hi, hx]
    have h2 : b.live[i]? = some y := by
      rw [live, List.getElem?_take, if_pos (by omega), hy]
    rw [h, h2] at h1
    cases h1
    rw [hax, hby]
  · rintro ⟨hs, h⟩
    apply List.ext_getElem?
    intro i
    simp only [live, List.getElem?_take, ← hs]
    split_ifs with hi
    · obtain ⟨x, hx, hax⟩ := index_of_lt a i hi ha
      obtain ⟨y, hy, hby⟩ := index_of_lt b i (by omega) hb
      have := h i hi
      rw [hax, hby] at this
      cases this
      rw [hx, hy]
    · rfl

/-- C13: `a == b` returns true exactly when the two have the same size and
`a[i]` equals `b[i]` for every `i` below it; the result is fixed by the live
elements alone, so it depends neither on a capacity nor on a slot at or behind
the size; and `a != b` returns the negation of `a == b`. -/
theorem eq_contract [DecidableEq α] (a b : SimpleVector α)
    (ha : a.size_ ≤ a.vector_.length) (hb : b.size_ ≤ b.vector_.length) :
    ∃ r : Bool,
      eq a b = .ok r ∧ ne a b = .ok (!r) ∧
      (r = true ↔ a.size_ = b.size_ ∧ ∀ i, i < a.size_ → index a i = index b i) ∧
      (∀ a' b' : SimpleVector α, a'.size_ ≤ a'.vector_.length →
        b'.size_ ≤ b'.vector_.length → a'.live = a.live → b'.live = b.live →
        eq a' b' = .ok r) := by
  refine ⟨decide (a.live = b.live), eq_result a b ha hb, ne_result a b ha hb, ?_, ?_⟩
  · rw [decide_eq_true_iff]
    exact live_eq_iff a b ha hb
  · intro a' b' ha' hb' h1 h2
    rw [eq_result a' b' ha' hb', h1, h2]

/-- C13, on the examples of the spec: `{1,2,3} == {1,2,3}` whatever the dead
slots and capacities, `{1,2} != {1,2,3}`, `{} == {}`. -/
theorem eq_contract_witness :
    (∃ r : Bool,
      eq (⟨[1, 2, 3], 3, 3⟩ : SimpleVector Nat) ⟨[1, 2, 3, 7], 3, 4⟩ = .ok r ∧
      ne (⟨[1, 2, 3], 3, 3⟩ : SimpleVector Nat) ⟨[1, 2, 3, 7], 3, 4⟩ = .ok (!r) ∧
      (r = true ↔ 3 = 3 ∧ ∀ i, i < 3 →
        index (⟨[1, 2, 3], 3, 3⟩ : SimpleVector Nat) i = index ⟨[1, 2, 3, 7], 3, 4⟩ i) ∧
      (∀ a' b' : SimpleVector Nat, a'.size_ ≤ a'.vector_.length →
        b'.size_ ≤ b'.vector_.length → a'.live = [1, 2, 3] → b'.live = [1, 2, 3] →
        eq a' b' = .ok r)) ∧
    eq (⟨[1, 2, 3], 3, 3⟩ : SimpleVector Nat) ⟨[1, 2, 3, 7], 3, 4⟩ = .ok true ∧
    ne (⟨[1, 2], 2, 2⟩ : SimpleVector Nat) ⟨[1, 2, 3], 3, 3⟩ = .ok true ∧
    eq (⟨[], 0, 0⟩ : SimpleVector Nat) ⟨[], 0, 0⟩ = .ok true :=
  ⟨eq_contract ⟨[1, 2, 3], 3, 3⟩ ⟨[1, 2, 3, 7], 3, 4⟩ (by decide) (by decide), rfl, rfl, rfl⟩

/-- C14: over a linearly ordered element type `a < b` returns true exactly when
the live elements of `a` are lexicographically smaller than those of `b`: they
are a proper prefix of those of `b`, or at the first index where the two differ
the element of `a` is the smaller one; and `b > a` is that same result. -/
theorem lt_contract [LinearOrder α] (a b : SimpleVector α)
    (ha : a.size_ ≤ a.vector_.length) (hb : b.size_ ≤ b.vector_.length) :
    ∃ r : Bool,
      lt a b = .ok r ∧ gt b a = .ok r ∧
      (r = true ↔
        (a.size_ < b.size_ ∧ b.live.take a.size_ = a.live) ∨
        ∃ i x y, a.live[i]? = some x ∧ b.live[i]? = some y ∧
          a.live.take i = b.live.take i ∧ x < y) := by
  have h := lt_result a b ha hb
  refine ⟨lex_lt a.live b.live, h, h, ?_⟩
  rw [lex_lt_iff, LexLess, length_live a ha, length_live b hb]

/-- C14, on the examples of the spec: `{1,2} < {1,2,3}` and `{1,3} > {1,2,9}`. -/
theorem lt_contract_witness :
    (∃ r : Bool,
      lt (⟨[1, 2], 2, 2⟩ : SimpleVector Nat) ⟨[1, 2, 3], 3, 3⟩ = .ok r ∧
      gt (⟨[1, 2, 3], 3, 3⟩ : SimpleVector Nat) ⟨[1, 2], 2, 2⟩ = .ok r ∧
      (r = true ↔
        (2 < 3 ∧ ([1, 2, 3] : List Nat).take 2 = [1, 2]) ∨
        ∃ i x y, ([1, 2] : List Nat)[i]? = some x ∧ ([1, 2, 3] : List Nat)[i]? = some y ∧
          ([1, 2] : List Nat).take i = ([1, 2, 3] : List Nat).take i ∧ x < y)) ∧
    lt (⟨[1, 2], 2, 2⟩ : SimpleVector Nat) ⟨[1, 2, 3], 3, 3⟩ = .ok true ∧
    gt (⟨[1, 3], 2, 2⟩ : SimpleVector Nat) ⟨[1, 2, 9], 3, 3⟩ = .ok true :=
  ⟨lt_contract ⟨[1, 2], 2, 2⟩ ⟨[1, 2, 3], 3, 3⟩ (by decide) (by decide), rfl, rfl⟩

/-- C15: over a linearly ordered element type the derived comparisons agree with
`<` and `==`: `a <= b` is `a < b || a == b`, `a > b` is `b < a`, `a >= b` is
`a > b || a == b`, and exactly one of `a < b`, `a == b`, `a > b` is true. -/
theorem derived_comparisons [LinearOrder α] (a b : SimpleVector α)
    (ha : a.size_ ≤ a.vector_.length) (hb : b.size_ ≤ b.vector_.length) :
    ∃ l e g : Bool,
      lt a b = .ok l ∧ eq a b = .ok e ∧ gt a b = .ok g ∧
      lt b a = .ok g ∧
      le a b = .ok (l || e) ∧
      ge a b = .ok (g || e) ∧
      ((l = true ∧ e = false ∧ g = false) ∨ (l = false ∧ e = true ∧ g = false) ∨
        (l = false ∧ e = false ∧ g = true)) := by
  have h1 := lt_result a b ha hb
  have h2 := lt_result b a hb ha
  have h3 := eq_result a b ha hb
  have ht : (lex_lt a.live b.live = true ∧ decide (a.live = b.live) = false ∧
        lex_lt b.live a.live = false) ∨
      (lex_lt a.live b.live = false ∧ decide (a.live = b.live) = true ∧
        lex_lt b.live a.live = false) ∨
      (lex_lt a.live b.live = false ∧ decide (a.live = b.live) = false ∧
        lex_lt b.live a.live = true) := by
    rcases lex_lt_trichotomy a.live b.live with ⟨t1, t2, t3⟩ | ⟨t1, t2, t3⟩ | ⟨t1, t2, t3⟩
    · exact Or.inl ⟨t1, decide_eq_false t2, t3⟩
    · exact Or.inr (Or.inl ⟨t1, decide_eq_true t2, t3⟩)
    · exact Or.inr (Or.inr ⟨t1, decide_eq_false t2, t3⟩)
  generalize lex_lt a.live b.live = l at h1 ht
  generalize lex_lt b.live a.live = g at h2 ht
  generalize decide (a.live = b.live) = e at h3 ht
  refine ⟨l, e, g, h1, h3, h2, h2, ?_, ?_, ht⟩
  · unfold le
    rw [h2, ok_bind]
    rcases ht with ⟨rfl, rfl, rfl⟩ | ⟨rfl, rfl, rfl⟩ | ⟨rfl, rfl, rfl⟩ <;> rfl
  · unfold ge
    rw [h1, ok_bind]
    rcases ht with ⟨rfl, rfl, rfl⟩ | ⟨rfl, rfl, rfl⟩ | ⟨rfl, rfl, rfl⟩ <;> rfl

/-- C15, at `{1,3}` and `{1,2,9}`: of the three comparisons only `>` is true. -/
theorem derived_comparisons_witness :
    (∃ l e g : Bool,
      lt (⟨[1, 3], 2, 2⟩ : SimpleVector Nat) ⟨[1, 2, 9], 3, 3⟩ = .ok l ∧
      eq (⟨[1, 3], 2, 2⟩ : SimpleVector Nat) ⟨[1, 2, 9], 3, 3⟩ = .ok e ∧
      gt (⟨[1, 3], 2, 2⟩ : SimpleVector Nat) ⟨[1, 2, 9], 3, 3⟩ = .ok g ∧
      lt (⟨[1, 2, 9], 3, 3⟩ : SimpleVector Nat) ⟨[1, 3], 2, 2⟩ = .ok g ∧
      le (⟨[1, 3], 2, 2⟩ : SimpleVector Nat) ⟨[1, 2, 9], 3, 3⟩ = .ok (l || e) ∧
      ge (⟨[1, 3], 2, 2⟩ : SimpleVector Nat) ⟨[1, 2, 9], 3, 3⟩ = .ok (g || e) ∧
      ((l = true ∧ e = false ∧ g = false) ∨ (l = false ∧ e = true ∧ g = false) ∨
        (l = false ∧ e = false ∧ g = true))) ∧
    le (⟨[1, 3], 2, 2⟩ : SimpleVector Nat) ⟨[1, 2, 9], 3, 3⟩ = .ok false ∧
    ge (⟨[1, 3], 2, 2⟩ : SimpleVector Nat) ⟨[1, 2, 9], 3, 3⟩ = .ok true :=
  ⟨derived_comparisons ⟨[1, 3], 2, 2⟩ ⟨[1, 2, 9], 3, 3⟩ (by decide) (by decide), rfl, rfl⟩

/-! ## Clear -/

/-- C16: `Clear` sets the size to 0 and leaves the capacity and every slot of the
buffer as they were; afterwards `IsEmpty` is true. -/
theorem Clear_contract (s : SimpleVector α) :
    (Clear s).size_ = 0 ∧ (Clear s).capacity_ = s.capacity_ ∧
    (Clear s).vector_ = s.vector_ ∧ (Clear s).IsEmpty = true :=
  ⟨rfl, rfl, rfl, rfl⟩

/-! ## Erase behind the end -/

/-- C17: on a non-empty sequence, `Erase` at a position behind `end()` does not
stop at an assertion: its only assertion, `!IsEmpty()`, holds, and the call goes
on into `std::move` with a range whose start lies behind its end, which is
undefined behaviour. `Insert` at the same position does stop at its
assertion. -/
theorem Erase_beyond_end [Inhabited α] (moved : α → α) (s : SimpleVector α) (pos : Nat)
    (v : Ref α) (h0 : s.size_ ≠ 0) (hpos : s.size_ < pos) :
    Erase moved s pos = .error .out_of_bounds ∧
    Erase moved s pos ≠ .error .assertion ∧
    Insert s pos v = .error .assertion := by
  have he : s.IsEmpty = false := by
    simp only [IsEmpty, beq_eq_false_iff_ne]
    exact h0
  have h1 : Erase moved s pos = .error .out_of_bounds := by
    simp only [Erase, he, Bool.false_eq_true, if_false, move]
    rw [if_pos (by omega)]
    rfl
  refine ⟨h1, ?_, ?_⟩
  · rw [h1]
    intro h
    cases h
  · simp only [Insert]
    rw [if_pos (by omega)]

/-- C17, at the sequence `{1, 2, 3}` and the position `begin() + 5`. -/
theorem Erase_beyond_end_witness :
    Erase (fun x => x) (⟨[1, 2, 3], 3, 3⟩ : SimpleVector Nat) 5 = .error .out_of_bounds ∧
    Erase (fun x => x) (⟨[1, 2, 3], 3, 3⟩ : SimpleVector Nat) 5 ≠ .error .assertion ∧
    Insert (⟨[1, 2, 3], 3, 3⟩ : SimpleVector Nat) 5 (.outside 9) = .error .assertion :=
  Erase_beyond_end (fun x => x) ⟨[1, 2, 3], 3, 3⟩ 5 (.outside 9) (by decide) (by decide)

/-! ## Resize followed by PushBack -/

/-- C18: on a buffer of exactly `c` slots, `Resize(k)` with `c < k < 2c` returns
a state with `k` slots, size `k` and capacity `2c`; the `PushBack` that follows,
in either overload, finds room by the counters and writes slot `k`, which is
outside the allocated block. -/
theorem Resize_then_PushBack_out_of_bounds [Inhabited α] (moved : α → α) (s : SimpleVector α)
    (k : Nat) (v : α) (hbuf : s.vector_.length = s.capacity_) (hsize : s.size_ ≤ s.capacity_)
    (hk1 : s.capacity_ < k) (hk2 : k < 2 * s.capacity_) :
    ∃ s' : SimpleVector α,
      Resize s k = .ok s' ∧
      s'.size_ = k ∧ s'.vector_.length = k ∧ s'.capacity_ = 2 * s.capacity_ ∧
      PushBack s' v = .error .out_of_bounds ∧
      PushBackMove moved s' v = .error .out_of_bounds := by
  obtain ⟨buf, h1, h2, _⟩ := Resize_result s k hsize (by omega)
  rw [if_neg (by omega)] at h1 h2
  have hmax : max k (s.capacity_ * 2) = 2 * s.capacity_ := by omega
  rw [hmax] at h1
  have hne : ¬ k = 2 * s.capacity_ := by omega
  have hw : writeSlot buf k v = .error .out_of_bounds := writeSlot_of_le buf k v (by omega)
  refine ⟨⟨buf, k, 2 * s.capacity_⟩, h1, rfl, h2, rfl, ?_, ?_⟩
  · simp only [PushBack, Insert, Nat.le_refl, not_true_eq_false, if_false, if_neg hne,
      copy_backward, Nat.lt_irrefl, Nat.sub_self, copy_backward_loop, ok_bind, deref, hw,
      error_bind]
  · simp only [PushBackMove, InsertMove, Nat.le_refl, not_true_eq_false, if_false, if_neg hne,
      move_backward, Nat.lt_irrefl, Nat.sub_self, move_backward_loop, ok_bind, hw, error_bind]

/-- C18, at the sequence `{1, 2}` with capacity 2: `Resize(3)` gives three slots
and capacity 4, and `PushBack(5)` writes the fourth. -/
theorem Resize_then_PushBack_out_of_bounds_witness :
    ∃ s' : SimpleVector Nat,
      Resize ⟨[1, 2], 2, 2⟩ 3 = .ok s' ∧
      s'.size_ = 3 ∧ s'.vector_.length = 3 ∧ s'.capacity_ = 2 * 2 ∧
      PushBack s' 5 = .error .out_of_bounds ∧
      PushBackMove (fun x => x) s' 5 = .error .out_of_bounds :=
  Resize_then_PushBack_out_of_bounds (fun x => x) ⟨[1, 2], 2, 2⟩ 3 5 rfl (by decide)
    (by decide) (by decide)

/-! ## Insert followed by Erase, PopBack as Erase -/

/-- Taking out the element that was put in at `k` gives the list back. -/
theorem erase_inserted (L : List α) (k : Nat) (v : α) (h : k ≤ L.length) :
    (L.take k ++ v :: L.drop k).take k ++ (L.take k ++ v :: L.drop k).drop (k + 1) = L := by
  have hlen : (L.take k).length = k := by
    rw [List.length_take]
    omega
  have e : (L.take k ++ v :: L.drop k).drop (k + 1) = L.drop k := by
    have e1 : k + 1 = (L.take k).length + 1 := by omega
    rw [e1, List.drop_append]
    rfl
  rw [List.take_left' hlen, e, List.take_append_drop]

/-- `Insert` through any reference that can be read, followed by `Erase` at the
same position, gives back the size and the live elements. -/
theorem round_trip_of_ref [Inhabited α] (moved : α → α) (s : SimpleVector α)
    (index : Nat) (r : Ref α) (x : α) (hsize : s.size_ ≤ s.capacity_)
    (hbuf : s.capacity_ ≤ s.vector_.length) (hidx : index ≤ s.size_)
    (hx : deref (if s.size_ = s.capacity_ then s.vector_
      else shifted s.vector_ index (s.size_ - index)) r = .ok x) :
    ∃ s1 s2 : SimpleVector α,
      Insert s index r = .ok (s1, index) ∧
      Erase moved s1 index = .ok (s2, index) ∧
      s2.size_ = s.size_ ∧ s2.live = s.live ∧ s.capacity_ ≤ s2.capacity_ := by
  obtain ⟨buf, h1, h3, h4⟩ := Insert_result_ref s index r x hsize hbuf hidx hx
  have hl : s.live.length = s.size_ := length_live s (by omega)
  have hb1 : s.size_ + 1 ≤ buf.length := by
    rw [h3]
    split_ifs <;> omega
  obtain ⟨y, hy⟩ := Erase_result moved
    ⟨buf, s.size_ + 1, if s.capacity_ = 0 then 1
      else if s.size_ = s.capacity_ then s.capacity_ * 2 else s.capacity_⟩
    index hb1 (by show index < s.size_ + 1; omega)
  have hlive := live_closed_up
    ⟨buf, s.size_ + 1, if s.capacity_ = 0 then 1
      else if s.size_ = s.capacity_ then s.capacity_ * 2 else s.capacity_⟩
    index y hb1 (by show index < s.size_ + 1; omega)
  refine ⟨_, _, h1, hy, rfl, ?_, ?_⟩
  · show List.take (s.size_ + 1 - 1) _ = s.live
    rw [hlive]
    show (buf.take (s.size_ + 1)).take index ++ (buf.take (s.size_ + 1)).drop (index + 1) = _
    rw [h4]
    exact erase_inserted s.live index x (by omega)
  · show s.capacity_ ≤ (if s.capacity_ = 0 then 1
      else if s.size_ = s.capacity_ then s.capacity_ * 2 else s.capacity_)
    split_ifs <;> omega

/-- C19: on a buffer of exactly `capacity_` slots with the size within it,
`Insert(begin + index, v)` with `index <= size_`, in either overload, followed by
`Erase(begin + index)` returns a state with the size and the live elements from
before the `Insert`; the capacity has not shrunk. The same holds when the
argument of the copy overload refers to a slot of the buffer, whatever value it
then inserts. -/
theorem Insert_Erase_round_trip [Inhabited α] (moved : α → α) (s : SimpleVector α)
    (index : Nat) (v : α) (hbuf : s.vector_.length = s.capacity_)
    (hsize : s.size_ ≤ s.capacity_) (hidx : index ≤ s.size_) :
    (∃ s1 s2 : SimpleVector α,
      Insert s index (.outside v) = .ok (s1, index) ∧
      InsertMove moved s index v = .ok (s1, index) ∧
      Erase moved s1 index = .ok (s2, index) ∧
      s2.size_ = s.size_ ∧ s2.live = s.live ∧ s.capacity_ ≤ s2.capacity_) ∧
    (∀ j, j < s.vector_.length →
      ∃ s1 s2 : SimpleVector α,
        Insert s index (.slot j) = .ok (s1, index) ∧
        Erase moved s1 index = .ok (s2, index) ∧
        s2.size_ = s.size_ ∧ s2.live = s.live ∧ s.capacity_ ≤ s2.capacity_) := by
  constructor
  · obtain ⟨s1, s2, h1, h2, h3, h4, h5⟩ :=
      round_trip_of_ref moved s index (.outside v) v hsize (by omega) hidx rfl
    refine ⟨s1, s2, h1, ?_, h2, h3, h4, h5⟩
    rw [InsertMove_eq_Insert moved s index v hsize (by omega) hidx, h1]
  · intro j hj
    have hlen : j < (if s.size_ = s.capacity_ then s.vector_
        else shifted s.vector_ index (s.size_ - index)).length := by
      split_ifs with hf
      · omega
      · rw [length_shifted _ _ _ (by omega)]
        omega
    exact round_trip_of_ref moved s index (.slot j) _ hsize (by omega) hidx
      (deref_slot_of_lt _ j hlen)

/-- C19, at the full sequence `{1, 2, 3}`: putting 9 in at position 1 doubles the
capacity, taking it out again gives `{1, 2, 3}` back. -/
theorem Insert_Erase_round_trip_witness :
    ∃ s1 s2 : SimpleVector Nat,
      Insert ⟨[1, 2, 3], 3, 3⟩ 1 (.outside 9) = .ok (s1, 1) ∧
      InsertMove (fun _ => 0) ⟨[1, 2, 3], 3, 3⟩ 1 9 = .ok (s1, 1) ∧
      Erase (fun _ => 0) s1 1 = .ok (s2, 1) ∧
      s2.size_ = 3 ∧ s2.live = [1, 2, 3] ∧ 3 ≤ s2.capacity_ :=
  (Insert_Erase_round_trip (fun _ => 0) ⟨[1, 2, 3], 3, 3⟩ 1 9 rfl (by decide) (by decide)).1

/-- C20: on a non-empty sequence `PopBack` returns the state with the size
reduced by one and the capacity and the buffer as they were, so that the live
elements are the old ones without the last; `Erase` at the position of the last
element returns that same state. -/
theorem PopBack_contract (moved : α → α) (s : SimpleVector α) (h0 : s.size_ ≠ 0) :
    ∃ s' : SimpleVector α,
      PopBack s = .ok s' ∧
      s'.size_ = s.size_ - 1 ∧ s'.capacity_ = s.capacity_ ∧ s'.vector_ = s.vector_ ∧
      s'.live = s.live.take (s.size_ - 1) ∧
      Erase moved s (s.size_ - 1) = .ok (s', s.size_ - 1) := by
  have he : s.IsEmpty = false := by
    simp only [IsEmpty, beq_eq_false_iff_ne]
    exact h0
  have e1 : s.size_ - 1 + 1 = s.size_ := by omega
  refine ⟨⟨s.vector_, s.size_ - 1, s.capacity_⟩, ?_, rfl, rfl, rfl, ?_, ?_⟩
  · simp only [PopBack, he, Bool.false_eq_true, if_false]
    rfl
  · show s.vector_.take (s.size_ - 1) = (s.vector_.take s.size_).take (s.size_ - 1)
    rw [List.take_take]
    congr 1
    omega
  · simp only [Erase, he, Bool.false_eq_true, if_false, move, e1, Nat.lt_irrefl, Nat.sub_self,
      move_loop, ok_bind]
    rfl

/-- C20, at the sequence `{1, 2, 3}` with capacity 4. -/
theorem PopBack_contract_witness :
    ∃ s' : SimpleVector Nat,
      PopBack ⟨[1, 2, 3, 0], 3, 4⟩ = .ok s' ∧
      s'.size_ = 3 - 1 ∧ s'.capacity_ = 4 ∧ s'.vector_ = [1, 2, 3, 0] ∧
      s'.live = [1, 2] ∧
      Erase (fun _ => 0) ⟨[1, 2, 3, 0], 3, 4⟩ (3 - 1) = .ok (s', 3 - 1) :=
  PopBack_contract (fun _ => 0) ⟨[1, 2, 3, 0], 3, 4⟩ (by decide)

end SimpleVector

end SimpleVec
